import Mathlib

/-!
Verification of the branch-aware workflow scheduler (`app/` sources).

The development shallowly embeds the Python sources:
* `app/models.py`   — job / workflow records (`Job`, `JobStatus`, `Workflow`);
* `app/state.py`    — the in-memory state store (`JOBS`, `BRANCH_QUEUES`,
  `RUNNING_JOBS`, `add_job`, `enqueue_job`);
* `app/scheduler.py` — one cycle of `scheduler_loop` as a pure function on the
  store state;
* `app/workers.py`  — the dispatcher's terminal-status finalisation;
* `app/main.py`     — the cancel endpoint's two mutation steps;
* `app/instanseg_tasks.py` — tiling and the two task routines, with the
  image reader / inference engine abstracted as per-tile oracles.

Python dicts are modelled as insertion-ordered association lists, sets as
duplicate-free lists, floats of the form `k/n*100` as rationals.  Interleaved
execution is modelled as a small-step relation `Step`: each constructor is one
lock-protected (or suspension-free) block of the source.
-/

namespace TLWS

/-- Job status values, from the `JobStatus` enum of `app/models.py`. -/
inductive JobStatus where
  | pending
  | running
  | succeeded
  | failed
  | cancelled
deriving DecidableEq, Repr

/-- Job type discriminator, from the `JobType` enum of `app/models.py`. -/
inductive JobType where
  | cellSegmentation
  | tissueMask
deriving DecidableEq, Repr

/-- Job record, from `app/models.py`.  `progress` is a rational: every value the
code assigns has the exact form `k/n*100` (or `0`, `100`). -/
structure Job where
  job_id : String
  workflow_id : String
  branch : String
  user_id : String
  job_type : JobType
  wsi_path : String
  status : JobStatus
  progress : ℚ
  error_message : Option String
deriving DecidableEq, Repr

/-- Workflow record, from `app/models.py`. -/
structure Workflow where
  workflow_id : String
  user_id : String
  jobs : List Job
deriving DecidableEq, Repr

/-! ## Tiling (`generate_tiles`, `app/instanseg_tasks.py` lines 46-59) -/

/-- A tile `(x, y, w, h)` as appended by `generate_tiles`. -/
structure Tile where
  x : Nat
  y : Nat
  w : Nat
  h : Nat
deriving DecidableEq, Repr

/-- Inner `while x < width` loop of `generate_tiles`: emit
`(x, y, min tile_size (width - x), h)` and advance `x` by `step`.
The conjunct `0 < step` only guards termination; every call site of the Python
function uses `step = tile_size - overlap = 448 > 0`. -/
def tilesInner (width tile_size step y h x : Nat) : List Tile :=
  if _hx : x < width ∧ 0 < step then
    { x := x, y := y, w := min tile_size (width - x), h := h } ::
      tilesInner width tile_size step y h (x + step)
  else []
termination_by width - x
decreasing_by omega

/-- Outer `while y < height` loop of `generate_tiles`: compute
`h = min tile_size (height - y)`, run the inner loop from `x = 0`, advance `y`
by `step`. -/
def tilesOuter (width height tile_size step y : Nat) : List Tile :=
  if _hy : y < height ∧ 0 < step then
    tilesInner width tile_size step y (min tile_size (height - y)) 0
      ++ tilesOuter width height tile_size step (y + step)
  else []
termination_by height - y
decreasing_by omega

/-- The `generate_tiles(width, height, tile_size, overlap)` from
`app/instanseg_tasks.py`: `step = tile_size - overlap`, rows scanned top to
bottom, tiles left to right within a row. -/
def generate_tiles (width height tile_size overlap : Nat) : List Tile :=
  tilesOuter width height tile_size (tile_size - overlap) 0

theorem tilesInner_length (width tile_size y h : Nat) :
    ∀ x, (tilesInner width tile_size 448 y h x).length = (width - x + 447) / 448 := by
  intro x
  rw [tilesInner]
  split
  · have ih := tilesInner_length width tile_size y h (x + 448)
    simp only [List.length_cons, ih]
    omega
  · simp only [List.length_nil]
    omega
termination_by x => width - x
decreasing_by omega

theorem tilesOuter_length (width height tile_size : Nat) :
    ∀ y, (tilesOuter width height tile_size 448 y).length =
      ((width + 447) / 448) * ((height - y + 447) / 448) := by
  intro y
  rw [tilesOuter]
  split
  · have ih := tilesOuter_length width height tile_size (y + 448)
    simp only [List.length_append, ih, tilesInner_length]
    have : width - 0 = width := by omega
    rw [this]
    have h448 : (height - y + 447) / 448 = (height - (y + 448) + 447) / 448 + 1 := by
      omega
    rw [h448, Nat.mul_add, Nat.mul_one]
    omega
  · simp only [List.length_nil]
    have : (height - y + 447) / 448 = 0 := by omega
    rw [this, Nat.mul_zero]
termination_by y => height - y
decreasing_by omega

theorem tilesInner_mem (width tile_size step y h : Nat) :
    ∀ x t, t ∈ tilesInner width tile_size step y h x →
      t.y = y ∧ t.h = h ∧ t.x < width ∧ t.w = min tile_size (width - t.x) := by
  intro x t ht
  rw [tilesInner] at ht
  split at ht
  · rename_i hx
    rcases List.mem_cons.mp ht with ht | ht
    · subst ht
      exact ⟨rfl, rfl, hx.1, rfl⟩
    · exact tilesInner_mem width tile_size step y h (x + step) t ht
  · exact absurd ht (List.not_mem_nil t)
termination_by x => width - x
decreasing_by omega

theorem tilesOuter_mem (width height tile_size step : Nat) :
    ∀ y t, t ∈ tilesOuter width height tile_size step y →
      t.y < height ∧ t.h = min tile_size (height - t.y) ∧
      t.x < width ∧ t.w = min tile_size (width - t.x) := by
  intro y t ht
  rw [tilesOuter] at ht
  split at ht
  · rcases List.mem_append.mp ht with ht | ht
    · obtain ⟨hy, hh, hx, hw⟩ := tilesInner_mem width tile_size step y _ 0 t ht
      subst hy
      exact ⟨by omega, hh, hx, hw⟩
    · exact tilesOuter_mem width height tile_size step (y + step) t ht
  · exact absurd ht (List.not_mem_nil t)
termination_by y => height - y
decreasing_by omega

theorem tilesOuter_width_zero (height tile_size step : Nat) :
    ∀ y, tilesOuter 0 height tile_size step y = [] := by
  intro y
  rw [tilesOuter]
  split
  · rw [tilesInner, tilesOuter_width_zero height tile_size step (y + step)]
    simp
  · rfl
termination_by y => height - y
decreasing_by omega

/-- With `W = 0` or `H = 0` the tile list is empty (`generate_tiles` line 51
never enters the outer loop for `H = 0`; for `W = 0` every row is empty). -/
theorem generate_tiles_empty (W H tile_size overlap : Nat)
    (h : W = 0 ∨ H = 0) : generate_tiles W H tile_size overlap = [] := by
  rcases h with h | h
  · subst h
    exact tilesOuter_width_zero H tile_size (tile_size - overlap) 0
  · subst h
    rw [generate_tiles, tilesOuter]
    simp

/-- C7: for `W, H > 0`, `generate_tiles` with `T = 512`, `O = 64` (step 448)
returns exactly `⌈W/448⌉ * ⌈H/448⌉` tiles; every tile `(x, y, w, h)` satisfies
`x + w ≤ W`, `y + h ≤ H`, `w = min 512 (W - x)` and `h = min 512 (H - y)`
(coordinates are naturals, so `0 ≤ x, y` holds by type).  The result is a pure
function of `(W, H, T, O)`, hence deterministic. -/
theorem c7_tiling_count_and_bounds (W H : Nat) (_hW : 0 < W) (_hH : 0 < H) :
    (generate_tiles W H 512 64).length = ((W + 447) / 448) * ((H + 447) / 448) ∧
    ∀ t ∈ generate_tiles W H 512 64,
      t.x + t.w ≤ W ∧ t.y + t.h ≤ H ∧
      t.w = min 512 (W - t.x) ∧ t.h = min 512 (H - t.y) := by
  constructor
  · show (tilesOuter W H 512 448 0).length = _
    rw [tilesOuter_length]
    rw [Nat.sub_zero]
  · intro t ht
    obtain ⟨hy, hh, hx, hw⟩ := tilesOuter_mem W H 512 448 0 t ht
    refine ⟨?_, ?_, hw, hh⟩ <;> omega

/-- Witness for C7 at `W = H = 1024`: nine tiles, all within bounds. -/
theorem c7_tiling_count_and_bounds_witness :
    0 < 1024 ∧
    (generate_tiles 1024 1024 512 64).length = ((1024 + 447) / 448) * ((1024 + 447) / 448) ∧
    ∀ t ∈ generate_tiles 1024 1024 512 64,
      t.x + t.w ≤ 1024 ∧ t.y + t.h ≤ 1024 ∧
      t.w = min 512 (1024 - t.x) ∧ t.h = min 512 (1024 - t.y) :=
  ⟨by decide, c7_tiling_count_and_bounds 1024 1024 (by decide) (by decide)⟩

/-! ## Task routines (`app/instanseg_tasks.py`)

The image reader and the inference engine are external collaborators; the
embedding abstracts them as a per-tile oracle.  The bounded-concurrency drain
(`asyncio.wait`) completes tasks in a nondeterministic order; that order only
permutes when polygons are appended, while the shared `tiles_processed`
counter increments once per tile regardless, so every value assigned to
`job.progress` is `min(k / total * 100, 100)` for `k = 1, 2, ...`.  The
embedding fixes completion order to submission order. -/

/-- A polygon as returned by `run_instanseg_on_tile` (lines 95-113): the
bounding-box ring of a labeled region in tile-local pixels, with the region
label and area. -/
structure RegionPoly where
  points : List (Nat × Nat)
  label : Int
  area : ℚ
deriving DecidableEq, Repr

/-- A polygon record appended to the job accumulator by the drain step
(lines 178-189): points shifted by the tile origin, plus the origin itself. -/
structure OutPoly where
  points : List (Nat × Nat)
  label : Int
  area : ℚ
  tile_origin : Nat × Nat
deriving DecidableEq, Repr

/-- Outcome of one tile of the cell-segmentation pipeline, abstracting the
collaborators:
* `readError`  — the tile body raised before submission (read-region or tissue
  test), caught by the per-tile handler at lines 233-236;
* `background` — `contains_tissue` returned false, tile skipped (lines 209-214);
* `inferError` — inference raised; `infer_tile` catches it and yields no
  polygons (lines 147-149), as does `run_instanseg_on_tile` (lines 84-86);
* `polys ps`   — inference returned the regions `ps` (possibly empty, e.g. when
  the InstanSeg model is unavailable). -/
inductive TileResult where
  | readError
  | background
  | inferError
  | polys (ps : List RegionPoly)
deriving DecidableEq, Repr

/-- Coordinate shift and origin stamp of the drain step (lines 181-188). -/
def shiftPoly (t : Tile) (p : RegionPoly) : OutPoly :=
  { points := p.points.map fun q => (q.1 + t.x, q.2 + t.y)
    label := p.label
    area := p.area
    tile_origin := (t.x, t.y) }

/-- Polygons contributed by one tile: none for skipped or failed tiles. -/
def tilePolys (t : Tile) (r : TileResult) : List OutPoly :=
  match r with
  | .readError => []
  | .background => []
  | .inferError => []
  | .polys ps => ps.map (shiftPoly t)

/-- The per-tile loop of `instanseg_process_wsi` (lines 201-239), with the
drain sequentialised to submission order.  `i` is the value of the shared
`tiles_processed` counter before the current tile; every tile — read failure,
background, inference failure or success — increments it and then assigns
`progress = min((i + 1) / total * 100, 100)` (lines 192, 211, 236).  Returns
the trace of progress assignments and the accumulated polygons. -/
def cellLoop (oracle : Nat → TileResult) (total : Nat) (i : Nat) :
    List Tile → List ℚ × List OutPoly
  | [] => ([], [])
  | t :: rest =>
    let next := cellLoop oracle total (i + 1) rest
    (min (((i : ℚ) + 1) / (total : ℚ) * 100) 100 :: next.1,
      tilePolys t (oracle i) ++ next.2)

/-- Result of one task routine run: the trace of values assigned to
`job.progress`, the accumulated output, whether the artifact file was written
(`some` = written, with its content), and whether the routine raised to
`run_job` (fatal). -/
structure CellRun where
  progressTrace : List ℚ
  polygons : List OutPoly
  artifact : Option (List OutPoly)
  raised : Bool
deriving DecidableEq, Repr

/-- The `instanseg_process_wsi` (lines 123-253) on an image of dimensions
`W × H`: tile, early-return with `progress = 100` on an empty tile list
(lines 131-133) — note the early return precedes the artifact export at
lines 243-248, so no file is written in that case — otherwise run the tiled
pipeline and export the polygons; a failing export (`writeOk = false`) raises
out of the routine after the full loop. -/
def instanseg_process_wsi (W H : Nat) (oracle : Nat → TileResult)
    (writeOk : Bool) : CellRun :=
  let tiles := generate_tiles W H 512 64
  let total := tiles.length
  if total = 0 then
    { progressTrace := [100], polygons := [], artifact := none, raised := false }
  else if writeOk then
    { progressTrace := (cellLoop oracle total 0 tiles).1
      polygons := (cellLoop oracle total 0 tiles).2
      artifact := some (cellLoop oracle total 0 tiles).2
      raised := false }
  else
    { progressTrace := (cellLoop oracle total 0 tiles).1
      polygons := (cellLoop oracle total 0 tiles).2
      artifact := none
      raised := true }

/-- One tile record of the tissue-mask artifact (lines 279-287). -/
structure MaskTileRec where
  x : Nat
  y : Nat
  w : Nat
  h : Nat
  mask_mean : ℚ
deriving DecidableEq, Repr

/-- Result of a `generate_tissue_mask` run, fields as in `CellRun`. -/
structure MaskRun where
  progressTrace : List ℚ
  tilesOut : List MaskTileRec
  artifact : Option (List MaskTileRec)
  raised : Bool
deriving DecidableEq, Repr

/-- The per-tile loop of `generate_tissue_mask` (lines 270-290).  The oracle
yields each tile's `mask_mean` (`some m`) or makes the tile read raise
(`none`); this loop has no per-tile handler, so a raise aborts the routine.
Progress is `(i + 1) / total * 100` (line 289), without the `min` clamp. -/
def maskLoop (oracle : Nat → Option ℚ) (total : Nat) (i : Nat) :
    List Tile → List ℚ × List MaskTileRec × Bool
  | [] => ([], [], false)
  | t :: rest =>
    match oracle i with
    | none => ([], [], true)
    | some m =>
      let next := maskLoop oracle total (i + 1) rest
      (((i : ℚ) + 1) / (total : ℚ) * 100 :: next.1,
        { x := t.x, y := t.y, w := t.w, h := t.h, mask_mean := m } :: next.2.1,
        next.2.2)

/-- The `generate_tissue_mask` (lines 256-298): early return with `progress = 100`
on an empty tile list (lines 264-266, again before the artifact export at
lines 292-296), otherwise run the loop and export the tile records. -/
def generate_tissue_mask (W H : Nat) (oracle : Nat → Option ℚ)
    (writeOk : Bool) : MaskRun :=
  let tiles := generate_tiles W H 512 64
  let total := tiles.length
  if total = 0 then
    { progressTrace := [100], tilesOut := [], artifact := none, raised := false }
  else if (maskLoop oracle total 0 tiles).2.2 then
    { progressTrace := (maskLoop oracle total 0 tiles).1
      tilesOut := (maskLoop oracle total 0 tiles).2.1
      artifact := none
      raised := true }
  else if writeOk then
    { progressTrace := (maskLoop oracle total 0 tiles).1
      tilesOut := (maskLoop oracle total 0 tiles).2.1
      artifact := some (maskLoop oracle total 0 tiles).2.1
      raised := false }
  else
    { progressTrace := (maskLoop oracle total 0 tiles).1
      tilesOut := (maskLoop oracle total 0 tiles).2.1
      artifact := none
      raised := true }

/-- Finalisation of `run_job` (`app/workers.py` lines 21-27) for a job whose
status is `RUNNING` when the routine returns or raises: a normal return sets
`SUCCEEDED` (the status is neither `FAILED` nor `CANCELLED`, see the C2
theorem) and assigns `progress = 100`; a raise sets `FAILED` and leaves
progress at its last value.  Returns the final status and the full lifetime
trace of `job.progress`, starting from the initial `0.0` of `app/models.py`. -/
def run_job_outcome (raised : Bool) (routineTrace : List ℚ) :
    JobStatus × List ℚ :=
  if raised then (.failed, 0 :: routineTrace)
  else (.succeeded, 0 :: (routineTrace ++ [100]))

/-- Specification view of the accumulated polygons: the concatenation, in tile
order, of each tile's shifted polygons. -/
def collectPolys (tiles : List Tile) (oracle : Nat → TileResult) : List OutPoly :=
  (tiles.enum.map fun p => tilePolys p.2 (oracle p.1)).flatten

theorem progVal_mono (n : Nat) (a b : ℚ) (hab : a ≤ b) (_ha : 0 ≤ a) :
    a / (n : ℚ) * 100 ≤ b / (n : ℚ) * 100 := by
  rcases Nat.eq_zero_or_pos n with h | h
  · subst h
    simp
  · have hn : (0 : ℚ) < n := by exact_mod_cast h
    gcongr

theorem progVal_nonneg (n i : Nat) : 0 ≤ ((i : ℚ) + 1) / (n : ℚ) * 100 := by
  positivity

theorem progVal_le_100 (n i : Nat) (h : i + 1 ≤ n) :
    ((i : ℚ) + 1) / (n : ℚ) * 100 ≤ 100 := by
  have hn : (0 : ℚ) < n := by
    exact_mod_cast Nat.lt_of_lt_of_le (Nat.succ_pos i) h
  have hle : ((i : ℚ) + 1) ≤ (n : ℚ) := by exact_mod_cast h
  rw [div_mul_eq_mul_div, div_le_iff₀ hn]
  nlinarith

theorem cellLoop_trace_length (oracle : Nat → TileResult) (n : Nat) :
    ∀ i l, ((cellLoop oracle n i l).1).length = l.length := by
  intro i l
  induction l generalizing i with
  | nil => rfl
  | cons t rest ih => simp [cellLoop, ih]

theorem cellLoop_trace_mem (oracle : Nat → TileResult) (n : Nat) :
    ∀ i l q, q ∈ (cellLoop oracle n i l).1 → 0 ≤ q ∧ q ≤ 100 := by
  intro i l
  induction l generalizing i with
  | nil => intro q hq; exact absurd hq (List.not_mem_nil q)
  | cons t rest ih =>
    intro q hq
    rcases List.mem_cons.mp hq with hq | hq
    · subst hq
      exact ⟨le_min (progVal_nonneg n i) (by norm_num), min_le_right _ _⟩
    · exact ih (i + 1) q hq

theorem cellLoop_trace_chain (oracle : Nat → TileResult) (n : Nat) :
    ∀ i l, List.Chain' (· ≤ ·) ((cellLoop oracle n i l).1) := by
  intro i l
  induction l generalizing i with
  | nil => simp [cellLoop]
  | cons t rest ih =>
    refine List.chain'_cons'.mpr ⟨?_, ih (i + 1)⟩
    intro b hb
    cases rest with
    | nil => simp [cellLoop] at hb
    | cons t2 r2 =>
      simp only [cellLoop, List.head?_cons, Option.mem_def, Option.some.injEq] at hb
      subst hb
      refine min_le_min (progVal_mono n _ _ (by push_cast; linarith) (by positivity)) le_rfl

theorem cellLoop_trace_getLast (oracle : Nat → TileResult) (n : Nat) :
    ∀ i l, l ≠ [] → ((cellLoop oracle n i l).1).getLast? =
      some (min (((i + l.length : Nat) : ℚ) / (n : ℚ) * 100) 100) := by
  intro i l
  induction l generalizing i with
  | nil => intro h; exact absurd rfl h
  | cons t rest ih =>
    intro _
    cases rest with
    | nil =>
      show List.getLast? [min (((i : ℚ) + 1) / (n : ℚ) * 100) 100] = _
      rw [List.getLast?_singleton]
      simp only [List.length_cons, List.length_nil]
      congr 2
      push_cast
      ring
    | cons t2 r2 =>
      have h1 : (cellLoop oracle n i (t :: t2 :: r2)).1 =
          min (((i : ℚ) + 1) / (n : ℚ) * 100) 100 ::
            (cellLoop oracle n (i + 1) (t2 :: r2)).1 := rfl
      have h2 : (cellLoop oracle n (i + 1) (t2 :: r2)).1 =
          min ((((i + 1 : Nat) : ℚ) + 1) / (n : ℚ) * 100) 100 ::
            (cellLoop oracle n (i + 1 + 1) r2).1 := rfl
      rw [h1, h2, List.getLast?_cons_cons, ← h2, ih (i + 1) (by simp)]
      have hlen : i + 1 + (t2 :: r2).length = i + (t :: t2 :: r2).length := by
        simp only [List.length_cons]
        omega
      rw [hlen]

theorem cellLoop_polys (oracle : Nat → TileResult) (n : Nat) :
    ∀ i l, (cellLoop oracle n i l).2 =
      ((l.enumFrom i).map fun p => tilePolys p.2 (oracle p.1)).flatten := by
  intro i l
  induction l generalizing i with
  | nil => rfl
  | cons t rest ih => simp [cellLoop, List.enumFrom, ih]

theorem maskLoop_trace_mem (oracle : Nat → Option ℚ) (n : Nat) :
    ∀ i l, i + l.length ≤ n →
      ∀ q ∈ (maskLoop oracle n i l).1, 0 ≤ q ∧ q ≤ 100 := by
  intro i l
  induction l generalizing i with
  | nil =>
    intro _ q hq
    exact absurd hq (List.not_mem_nil q)
  | cons t rest ih =>
    intro hlen q hq
    cases horacle : oracle i with
    | none => simp [maskLoop, horacle] at hq
    | some m =>
      simp only [maskLoop, horacle] at hq
      rcases List.mem_cons.mp hq with hq | hq
      · subst hq
        refine ⟨progVal_nonneg n i, progVal_le_100 n i ?_⟩
        simp only [List.length_cons] at hlen
        omega
      · refine ih (i + 1) ?_ q hq
        simp only [List.length_cons] at hlen
        omega

theorem maskLoop_trace_chain (oracle : Nat → Option ℚ) (n : Nat) :
    ∀ i l, List.Chain' (· ≤ ·) ((maskLoop oracle n i l).1) := by
  intro i l
  induction l generalizing i with
  | nil => simp [maskLoop]
  | cons t rest ih =>
    cases horacle : oracle i with
    | none => simp [maskLoop, horacle]
    | some m =>
      simp only [maskLoop, horacle]
      refine List.chain'_cons'.mpr ⟨?_, ih (i + 1)⟩
      intro b hb
      cases rest with
      | nil => simp [maskLoop] at hb
      | cons t2 r2 =>
        cases horacle2 : oracle (i + 1) with
        | none => simp [maskLoop, horacle2] at hb
        | some m2 =>
          simp only [maskLoop, horacle2, List.head?_cons, Option.mem_def,
            Option.some.injEq] at hb
          subst hb
          exact progVal_mono n _ _ (by push_cast; linarith) (by positivity)

theorem instanseg_progressTrace (W H : Nat) (oracle : Nat → TileResult)
    (writeOk : Bool) :
    (instanseg_process_wsi W H oracle writeOk).progressTrace =
      if (generate_tiles W H 512 64).length = 0 then [100]
      else (cellLoop oracle (generate_tiles W H 512 64).length 0
        (generate_tiles W H 512 64)).1 := by
  rw [instanseg_process_wsi]
  split
  · rfl
  · split <;> rfl

theorem mask_progressTrace (W H : Nat) (oracle : Nat → Option ℚ)
    (writeOk : Bool) :
    (generate_tissue_mask W H oracle writeOk).progressTrace =
      if (generate_tiles W H 512 64).length = 0 then [100]
      else (maskLoop oracle (generate_tiles W H 512 64).length 0
        (generate_tiles W H 512 64)).1 := by
  rw [generate_tissue_mask]
  split
  · rfl
  · split
    · rfl
    · split <;> rfl

/-- Monotone trace facts for the cell routine, all branches included. -/
theorem instanseg_trace_facts (W H : Nat) (oracle : Nat → TileResult)
    (writeOk : Bool) :
    List.Chain' (· ≤ ·) (instanseg_process_wsi W H oracle writeOk).progressTrace ∧
    ∀ q ∈ (instanseg_process_wsi W H oracle writeOk).progressTrace,
      0 ≤ q ∧ q ≤ 100 := by
  rw [instanseg_progressTrace]
  split
  · refine ⟨List.chain'_singleton _, ?_⟩
    intro q hq
    rcases List.mem_cons.mp hq with hq | hq
    · subst hq; norm_num
    · exact absurd hq (List.not_mem_nil q)
  · exact ⟨cellLoop_trace_chain _ _ 0 _, fun q hq => cellLoop_trace_mem _ _ 0 _ q hq⟩

/-- Monotone trace facts for the tissue-mask routine, all branches included. -/
theorem mask_trace_facts (W H : Nat) (oracle : Nat → Option ℚ)
    (writeOk : Bool) :
    List.Chain' (· ≤ ·) (generate_tissue_mask W H oracle writeOk).progressTrace ∧
    ∀ q ∈ (generate_tissue_mask W H oracle writeOk).progressTrace,
      0 ≤ q ∧ q ≤ 100 := by
  rw [mask_progressTrace]
  split
  · refine ⟨List.chain'_singleton _, ?_⟩
    intro q hq
    rcases List.mem_cons.mp hq with hq | hq
    · subst hq; norm_num
    · exact absurd hq (List.not_mem_nil q)
  · exact ⟨maskLoop_trace_chain _ _ 0 _,
      maskLoop_trace_mem _ _ 0 _ (by omega)⟩

/-- Lifetime of one dispatched cell-segmentation job: terminal status and the
full progress trace (`run_job` over `instanseg_process_wsi`). -/
def cellJobLifetime (W H : Nat) (oracle : Nat → TileResult) (writeOk : Bool) :
    JobStatus × List ℚ :=
  run_job_outcome (instanseg_process_wsi W H oracle writeOk).raised
    (instanseg_process_wsi W H oracle writeOk).progressTrace

/-- Lifetime of one dispatched tissue-mask job. -/
def maskJobLifetime (W H : Nat) (oracle : Nat → Option ℚ) (writeOk : Bool) :
    JobStatus × List ℚ :=
  run_job_outcome (generate_tissue_mask W H oracle writeOk).raised
    (generate_tissue_mask W H oracle writeOk).progressTrace

theorem run_job_outcome_chain (raised : Bool) (l : List ℚ)
    (hc : List.Chain' (· ≤ ·) l) (hmem : ∀ q ∈ l, 0 ≤ q ∧ q ≤ 100) :
    List.Chain' (· ≤ ·) (run_job_outcome raised l).2 := by
  cases raised with
  | true =>
    refine List.chain'_cons'.mpr ⟨?_, hc⟩
    intro y hy
    exact (hmem y (List.mem_of_mem_head? hy)).1
  | false =>
    refine List.chain'_cons'.mpr ⟨?_, ?_⟩
    · intro y hy
      cases l with
      | nil =>
        simp only [List.nil_append, List.head?_cons, Option.mem_def,
          Option.some.injEq] at hy
        subst hy
        norm_num
      | cons a l' =>
        simp only [List.cons_append, List.head?_cons, Option.mem_def,
          Option.some.injEq] at hy
        subst hy
        exact (hmem a (List.mem_cons_self a l')).1
    · refine List.chain'_append.mpr ⟨hc, List.chain'_singleton _, ?_⟩
      intro x hx y hy
      simp only [List.head?_cons, Option.mem_def, Option.some.injEq] at hy
      subst hy
      exact (hmem x (List.mem_of_mem_getLast? hx)).2

/-! ## Claims C3, C8, C9 -/

/-- C3 counterexample: on an empty image (`W = 0, H = 100` for the cell
routine, `W = 100, H = 0` for the mask routine) the task routine returns at
the `total_tiles == 0` early return (lines 131-133 resp. 264-266), which
precedes the artifact export (lines 243-248 resp. 292-296): the job succeeds
with progress `100`, but no `results/` artifact is written — refuting the
claim that "the result artifact is still written" with an empty list. -/
theorem c3_empty_image_counterexample :
    (instanseg_process_wsi 0 100 (fun _ => TileResult.polys []) true).artifact
      = none ∧
    (generate_tissue_mask 100 0 (fun _ => some 0) true).artifact = none ∧
    cellJobLifetime 0 100 (fun _ => TileResult.polys []) true
      = (JobStatus.succeeded, [0, 100, 100]) := by
  have h1 : generate_tiles 0 100 512 64 = [] :=
    generate_tiles_empty 0 100 512 64 (Or.inl rfl)
  have h2 : generate_tiles 100 0 512 64 = [] :=
    generate_tiles_empty 100 0 512 64 (Or.inr rfl)
  refine ⟨?_, ?_, ?_⟩ <;>
    simp [instanseg_process_wsi, generate_tissue_mask, cellJobLifetime,
      run_job_outcome, h1, h2]

/-- C3 (amended): for `W = 0` or `H = 0` the tile sequence is empty and both
routines return immediately with a single progress assignment `100` and
without raising, so the dispatcher marks the job `SUCCEEDED` with final
progress `100` — but no artifact is written (the early return precedes the
export step). -/
theorem c3_empty_image_behaviour (W H : Nat) (oc : Nat → TileResult)
    (om : Nat → Option ℚ) (w1 w2 : Bool) (h : W = 0 ∨ H = 0) :
    instanseg_process_wsi W H oc w1 =
      { progressTrace := [100], polygons := [], artifact := none,
        raised := false } ∧
    generate_tissue_mask W H om w2 =
      { progressTrace := [100], tilesOut := [], artifact := none,
        raised := false } ∧
    cellJobLifetime W H oc w1 = (JobStatus.succeeded, [0, 100, 100]) ∧
    maskJobLifetime W H om w2 = (JobStatus.succeeded, [0, 100, 100]) := by
  have ht : generate_tiles W H 512 64 = [] := generate_tiles_empty W H 512 64 h
  refine ⟨?_, ?_, ?_, ?_⟩ <;>
    simp [instanseg_process_wsi, generate_tissue_mask, cellJobLifetime,
      maskJobLifetime, run_job_outcome, ht]

/-- Witness for C3 (amended) at `W = 0`, `H = 7`. -/
theorem c3_empty_image_behaviour_witness :
    (0 = 0 ∨ 7 = 0) ∧
    (instanseg_process_wsi 0 7 (fun _ => TileResult.inferError) true =
      { progressTrace := [100], polygons := [], artifact := none,
        raised := false } ∧
    generate_tissue_mask 0 7 (fun _ => none) false =
      { progressTrace := [100], tilesOut := [], artifact := none,
        raised := false } ∧
    cellJobLifetime 0 7 (fun _ => TileResult.inferError) true
      = (JobStatus.succeeded, [0, 100, 100]) ∧
    maskJobLifetime 0 7 (fun _ => none) false
      = (JobStatus.succeeded, [0, 100, 100])) :=
  ⟨Or.inl rfl, c3_empty_image_behaviour 0 7 (fun _ => TileResult.inferError)
    (fun _ => none) true false (Or.inl rfl)⟩

/-- C9: per-tile failures are non-fatal in the cell-segmentation routine.  For
any per-tile outcomes (read errors, background skips, inference failures,
successes mixed arbitrarily) with a writable artifact, the routine never
raises, every tile counts toward progress (one progress assignment per tile),
the final progress assignment is exactly `100`, the artifact is written and
contains precisely the shifted polygons of the tiles whose inference
succeeded (in tile order), and the dispatcher marks the job `SUCCEEDED`. -/
theorem c9_tile_failure_nonfatal (W H : Nat) (oracle : Nat → TileResult)
    (hW : 0 < W) (hH : 0 < H) :
    (instanseg_process_wsi W H oracle true).raised = false ∧
    (instanseg_process_wsi W H oracle true).progressTrace.length =
      (generate_tiles W H 512 64).length ∧
    (instanseg_process_wsi W H oracle true).progressTrace.getLast? =
      some 100 ∧
    (instanseg_process_wsi W H oracle true).artifact =
      some (collectPolys (generate_tiles W H 512 64) oracle) ∧
    (cellJobLifetime W H oracle true).1 = JobStatus.succeeded := by
  have hn0 : (generate_tiles W H 512 64).length ≠ 0 := by
    show (tilesOuter W H 512 448 0).length ≠ 0
    rw [tilesOuter_length, Nat.sub_zero]
    have h1 : 0 < (W + 447) / 448 := Nat.div_pos (by omega) (by norm_num)
    have h2 : 0 < (H + 447) / 448 := Nat.div_pos (by omega) (by norm_num)
    positivity
  have hne : generate_tiles W H 512 64 ≠ [] := by
    intro hcon
    rw [hcon] at hn0
    exact hn0 rfl
  have hunfold : instanseg_process_wsi W H oracle true =
      { progressTrace := (cellLoop oracle (generate_tiles W H 512 64).length 0
          (generate_tiles W H 512 64)).1
        polygons := (cellLoop oracle (generate_tiles W H 512 64).length 0
          (generate_tiles W H 512 64)).2
        artifact := some (cellLoop oracle (generate_tiles W H 512 64).length 0
          (generate_tiles W H 512 64)).2
        raised := false } := by
    rw [instanseg_process_wsi]
    simp only [if_neg hn0]
    norm_num
  rw [hunfold]
  refine ⟨rfl, cellLoop_trace_length oracle _ 0 _, ?_, ?_, ?_⟩
  · rw [cellLoop_trace_getLast oracle _ 0 _ hne, Nat.zero_add]
    have : ((((generate_tiles W H 512 64).length : Nat) : ℚ) /
        ((generate_tiles W H 512 64).length : ℚ) * 100) = 100 := by
      rw [div_self (by exact_mod_cast hn0)]
      norm_num
    rw [this, min_self]
  · rw [cellLoop_polys]
    rfl
  · rw [cellJobLifetime, hunfold]
    rfl

/-- Witness for C9: a `4480 × 448` image (ten tiles in one row) where tile 2
raises on read and tile 5 raises in inference; the job still succeeds. -/
theorem c9_tile_failure_nonfatal_witness :
    0 < 4480 ∧
    ((instanseg_process_wsi 4480 448 (fun i =>
        if i = 2 then TileResult.readError
        else if i = 5 then TileResult.inferError
        else TileResult.polys []) true).raised = false ∧
    (instanseg_process_wsi 4480 448 (fun i =>
        if i = 2 then TileResult.readError
        else if i = 5 then TileResult.inferError
        else TileResult.polys []) true).progressTrace.length =
      (generate_tiles 4480 448 512 64).length ∧
    (instanseg_process_wsi 4480 448 (fun i =>
        if i = 2 then TileResult.readError
        else if i = 5 then TileResult.inferError
        else TileResult.polys []) true).progressTrace.getLast? = some 100 ∧
    (instanseg_process_wsi 4480 448 (fun i =>
        if i = 2 then TileResult.readError
        else if i = 5 then TileResult.inferError
        else TileResult.polys []) true).artifact =
      some (collectPolys (generate_tiles 4480 448 512 64) (fun i =>
        if i = 2 then TileResult.readError
        else if i = 5 then TileResult.inferError
        else TileResult.polys [])) ∧
    (cellJobLifetime 4480 448 (fun i =>
        if i = 2 then TileResult.readError
        else if i = 5 then TileResult.inferError
        else TileResult.polys []) true).1 = JobStatus.succeeded) :=
  ⟨by decide, c9_tile_failure_nonfatal 4480 448 _ (by decide) (by decide)⟩

theorem generate_tiles_448 :
    generate_tiles 448 448 512 64 = [{ x := 0, y := 0, w := 448, h := 448 }] := by
  rw [generate_tiles]
  rw [tilesOuter, dif_pos (by norm_num)]
  rw [tilesOuter, dif_neg (by norm_num)]
  rw [tilesInner, dif_pos (by norm_num)]
  rw [tilesInner, dif_neg (by norm_num)]
  norm_num

theorem run_job_outcome_succeeded (raised : Bool) (l : List ℚ)
    (hs : (run_job_outcome raised l).1 = JobStatus.succeeded) :
    ((run_job_outcome raised l).2).getLast? = some 100 := by
  cases raised with
  | true => simp [run_job_outcome] at hs
  | false =>
    show ((0 : ℚ) :: (l ++ [100])).getLast? = some 100
    rw [show (0 : ℚ) :: (l ++ [100]) = ((0 : ℚ) :: l) ++ [100] from rfl,
      List.getLast?_concat]

/-- C8 counterexample: a one-tile cell-segmentation job (`W = H = 448`) whose
tiles all process cleanly but whose artifact export fails (`writeOk = false`,
the `results/` write at lines 247-248 raising is listed job-fatal by the
code's own error handling): the loop has already assigned
`progress = 1/1*100 = 100`, the raise reaches `run_job` which sets `FAILED`
and leaves progress — so the job terminates `FAILED` with final progress
`100`, refuting "final value equals 100.0 iff final status is SUCCEEDED". -/
theorem c8_counterexample :
    (cellJobLifetime 448 448 (fun _ => TileResult.polys []) false).1 =
      JobStatus.failed ∧
    ((cellJobLifetime 448 448 (fun _ => TileResult.polys []) false).2).getLast?
      = some 100 := by
  have h : cellJobLifetime 448 448 (fun _ => TileResult.polys []) false =
      (JobStatus.failed, [0, 100]) := by
    rw [cellJobLifetime, instanseg_process_wsi, generate_tiles_448]
    norm_num [cellLoop, run_job_outcome]
  rw [h]
  exact ⟨rfl, rfl⟩

/-- C8 (amended): for every job (cell or mask routine, any per-tile outcomes,
artifact write succeeding or not) the lifetime sequence of `progress` values —
initial `0.0`, the per-tile assignments, and `run_job`'s final `100.0` on
success — is monotonically non-decreasing, and if the final status is
`SUCCEEDED` the final progress is `100.0`.  The converse direction of the
original claim is false (see the counterexample): a job can terminate
`FAILED` with progress `100.0` when the fatal error strikes after the last
tile. -/
theorem c8_progress_monotone (W H : Nat) (oc : Nat → TileResult)
    (om : Nat → Option ℚ) (w1 w2 : Bool) :
    List.Chain' (· ≤ ·) (cellJobLifetime W H oc w1).2 ∧
    ((cellJobLifetime W H oc w1).1 = JobStatus.succeeded →
      ((cellJobLifetime W H oc w1).2).getLast? = some 100) ∧
    List.Chain' (· ≤ ·) (maskJobLifetime W H om w2).2 ∧
    ((maskJobLifetime W H om w2).1 = JobStatus.succeeded →
      ((maskJobLifetime W H om w2).2).getLast? = some 100) := by
  obtain ⟨hc1, hm1⟩ := instanseg_trace_facts W H oc w1
  obtain ⟨hc2, hm2⟩ := mask_trace_facts W H om w2
  exact ⟨run_job_outcome_chain _ _ hc1 hm1,
    fun hs => run_job_outcome_succeeded _ _ hs,
    run_job_outcome_chain _ _ hc2 hm2,
    fun hs => run_job_outcome_succeeded _ _ hs⟩

/-! ## State store and scheduler (`app/state.py`, `app/scheduler.py`)

Python dicts become insertion-ordered association lists and Python sets
duplicate-free lists; `RUNNING_JOBS.add` / `set.add` is append-if-absent. -/

/-- The `MAX_WORKERS` (`app/scheduler.py` line 8). -/
def MAX_WORKERS : Nat := 4

/-- The `ACTIVE_USERS_LIMIT` (`app/scheduler.py` line 9). -/
def ACTIVE_USERS_LIMIT : Nat := 3

/-- Dict assignment `JOBS[id] = j`: replace in place, else append. -/
def setJob (m : List (String × Job)) (id : String) (j : Job) :
    List (String × Job) :=
  if (m.lookup id).isSome then m.map fun p => if p.1 = id then (p.1, j) else p
  else m ++ [(id, j)]

/-- In-place mutation of the job object stored under `id` (Python jobs are
shared references; field assignment edits the map entry). -/
def updJob (m : List (String × Job)) (id : String) (f : Job → Job) :
    List (String × Job) :=
  m.map fun p => if p.1 = id then (p.1, f p.2) else p

/-- The `BRANCH_QUEUES.get(b, [])` view. -/
def getQueue (qs : List (String × List String)) (b : String) : List String :=
  match qs.lookup b with
  | some q => q
  | none => []

/-- The `enqueue_job` (`app/state.py` lines 58-63): create the branch queue lazily
and append the job id at the tail. -/
def enqueue_job (qs : List (String × List String)) (b id : String) :
    List (String × List String) :=
  if (qs.lookup b).isSome then
    qs.map fun p => if p.1 = b then (p.1, p.2 ++ [id]) else p
  else qs ++ [(b, [id])]

/-- The global mutable state of `app/state.py` (`JOBS`, `BRANCH_QUEUES`,
`RUNNING_JOBS`; `WORKFLOWS`, `ACTIVE_USERS` and `USER_QUEUE` are not read by
the scheduler), extended with two observation-only history fields: `enqHist`
logs `enqueue_job` calls and `runHist` logs `PENDING → RUNNING` transitions,
both as `(branch, job_id)` pairs in event order.  The histories influence no
transition. -/
structure SysState where
  jobs : List (String × Job)
  queues : List (String × List String)
  running : List String
  enqHist : List (String × String)
  runHist : List (String × String)
deriving DecidableEq, Repr

/-- The empty startup state. -/
def initState : SysState :=
  { jobs := [], queues := [], running := [], enqHist := [], runHist := [] }

/-- Lines 22-27 of `app/scheduler.py`: recompute the active users from the
running set (ids missing from `JOBS` contribute nothing).  Python builds a
set; here the deduplicated list, whose length is the set's cardinality. -/
def activeUsers (jobs : List (String × Job)) (running : List String) :
    List String :=
  ((running.filterMap fun id => jobs.lookup id).map Job.user_id).dedup

/-- Lines 40-45: some running job has this branch. -/
def branchBusy (jobs : List (String × Job)) (running : List String)
    (b : String) : Bool :=
  running.any fun id =>
    match jobs.lookup id with
    | some j => j.branch == b
    | none => false

/-- The selection loop of `scheduler_loop` (lines 34-72), iterating the branch
queues in insertion order.  Per branch: skip if empty (line 36); skip if busy
(lines 40-47); evict one stale head — missing job or non-`PENDING` — and move
to the next branch (lines 50-60); skip if the user is new and the active-user
set already has `ACTIVE_USERS_LIMIT` members (lines 62-65) — note
`current_active_users` is NOT updated when a job is selected, see C1; `break`
out of the whole loop if the running set is full (lines 67-69, dead code
because line 30 already skipped the cycle in that case); otherwise select the
head (line 72), leaving the queue untouched until the start loop.
Returns the updated queues and the selected `(branch, job)` list in order. -/
def selectJobs (jobs : List (String × Job)) (running : List String)
    (actUsers : List String) :
    List (String × List String) →
      List (String × List String) × List (String × Job)
  | [] => ([], [])
  | (b, q) :: qs =>
    match q with
    | [] =>
      let r := selectJobs jobs running actUsers qs
      ((b, q) :: r.1, r.2)
    | id :: rest =>
      if branchBusy jobs running b then
        let r := selectJobs jobs running actUsers qs
        ((b, q) :: r.1, r.2)
      else
        match jobs.lookup id with
        | none =>
          let r := selectJobs jobs running actUsers qs
          ((b, rest) :: r.1, r.2)
        | some j =>
          if j.status ≠ JobStatus.pending then
            let r := selectJobs jobs running actUsers qs
            ((b, rest) :: r.1, r.2)
          else if j.user_id ∉ actUsers ∧ ACTIVE_USERS_LIMIT ≤ actUsers.length then
            let r := selectJobs jobs running actUsers qs
            ((b, q) :: r.1, r.2)
          else if MAX_WORKERS ≤ running.length then
            ((b, q) :: qs, [])
          else
            let r := selectJobs jobs running actUsers qs
            ((b, q) :: r.1, (b, j) :: r.2)

/-- The `RUNNING_JOBS.add(id)` / `set.add`: append if absent. -/
def addRun (r : List String) (id : String) : List String :=
  if id ∈ r then r else r ++ [id]

/-- Lines 82-83: pop the branch queue head after double-checking it is still
this job. -/
def popIfHead (qs : List (String × List String)) (b id : String) :
    List (String × List String) :=
  qs.map fun p =>
    if p.1 = b then
      match p.2 with
      | [] => p
      | h :: t => if h = id then (p.1, t) else p
    else p

def markRunning (jb : Job) : Job := { jb with status := JobStatus.running }

/-- The start loop of `scheduler_loop` (lines 74-90): for each selected job,
re-check the worker limit (lines 77-78, `break`), set the status to `RUNNING`
(line 81), pop the queue head (lines 82-83), add the id to the running set
(line 84) and update the cycle's active-user set (line 87) — which is
write-only at this point (see C1) but threaded here for fidelity.  The ghost
`runHist` records the `PENDING → RUNNING` transition. -/
def startJobs : SysState → List String → List (String × Job) → SysState
  | s, _, [] => s
  | s, actUsers, (b, j) :: rest =>
    if MAX_WORKERS ≤ s.running.length then s
    else
      startJobs
        { s with
            jobs := updJob s.jobs j.job_id markRunning
            queues := popIfHead s.queues b j.job_id
            running := addRun s.running j.job_id
            runHist := s.runHist ++ [(b, j.job_id)] }
        (addRun actUsers j.user_id) rest

/-- One cycle of `scheduler_loop` (`app/scheduler.py` lines 14-90): the whole
body runs under `state_lock`, so it is one atomic step.  Skip if there are no
branch queues (lines 19-20) or the running set is full (lines 30-31);
otherwise select (lines 34-72) and start (lines 74-90). -/
def schedulerCycle (s : SysState) : SysState :=
  if s.queues = [] then s
  else if MAX_WORKERS ≤ s.running.length then s
  else
    let r := selectJobs s.jobs s.running (activeUsers s.jobs s.running) s.queues
    startJobs { s with queues := r.1 } (activeUsers s.jobs s.running) r.2

/-- Job submission (`create_workflow`, `app/main.py` lines 100-114): a fresh
`PENDING` job is registered in `JOBS` (`add_job`) and appended to its branch
FIFO (`enqueue_job`). -/
def submitJob (s : SysState) (j : Job) : SysState :=
  { s with
      jobs := setJob s.jobs j.job_id j
      queues := enqueue_job s.queues j.branch j.job_id
      enqHist := s.enqHist ++ [(j.branch, j.job_id)] }

/-- First step of `cancel_job` (`app/main.py` lines 177-190): fetch the job,
reject non-`PENDING` (HTTP 400) or unknown id (404) as `none`, else write
`status = CANCELLED`.  The check (line 183) and the write (line 190) have no
suspension point between them, so they form one atomic block — but the write
happens OUTSIDE the `state_lock` section of lines 193-196. -/
def cancelMark (jb : Job) : Job := { jb with status := JobStatus.cancelled }

def cancelCheckAndSet (s : SysState) (id : String) : Option SysState :=
  match s.jobs.lookup id with
  | none => none
  | some j =>
    if j.status ≠ JobStatus.pending then none
    else some { s with jobs := updJob s.jobs id cancelMark }

/-- Second step of `cancel_job` (lines 193-196), under `state_lock`: remove
the id from its branch queue if present (removal of an absent id is a no-op,
matching the guarded `list.remove`). -/
def cancelRemoveFromQueue (s : SysState) (id : String) : SysState :=
  match s.jobs.lookup id with
  | none => s
  | some j =>
    { s with queues := s.queues.map fun p =>
        if p.1 = j.branch then (p.1, p.2.erase id) else p }

/-- Terminal-status finalisation of `run_job` (`app/workers.py` lines 16-27),
outside the lock: on normal return set `SUCCEEDED` and `progress = 100`
unless the status is already `FAILED` or `CANCELLED` (line 22); on a raise
(or unsupported job type) set `FAILED` and record the message. -/
def markSucceeded (jb : Job) : Job :=
  if jb.status ≠ JobStatus.failed ∧ jb.status ≠ JobStatus.cancelled then
    { jb with status := JobStatus.succeeded, progress := 100 }
  else jb

def markFailed (msg : String) (jb : Job) : Job :=
  { jb with status := JobStatus.failed, error_message := some msg }

def finishStatus (s : SysState) (id : String) (ok : Bool) (msg : String) :
    SysState :=
  if ok then { s with jobs := updJob s.jobs id markSucceeded }
  else { s with jobs := updJob s.jobs id (markFailed msg) }

/-- The `finally` block of `run_job` (lines 28-31), under `state_lock`:
discard the id from the running set. -/
def finishRemove (s : SysState) (id : String) : SysState :=
  { s with running := s.running.erase id }

/-- One interleaving step of the system.  Each constructor is one
suspension-free or lock-protected block of the source; the side conditions
record the call contexts:
* `submit`: ids are freshly generated (`uuid4().hex`), and jobs are created
  `PENDING` (`app/main.py` line 107);
* `cancelB` executes only after `cancelA` succeeded on the same id, and a
  `CANCELLED` status can never change again (the scheduler skips non-`PENDING`
  heads, `cancelA` requires `PENDING`), so the id's status is `CANCELLED`;
* `finishA`/`finishB` run in the worker task of a job the scheduler started,
  which stays in the running set until its own `finishB`. -/
inductive Step : SysState → SysState → Prop where
  | submit (s : SysState) (j : Job)
      (hfresh : s.jobs.lookup j.job_id = none)
      (hst : j.status = JobStatus.pending) :
      Step s (submitJob s j)
  | cycle (s : SysState) : Step s (schedulerCycle s)
  | cancelA (s s' : SysState) (id : String)
      (h : cancelCheckAndSet s id = some s') : Step s s'
  | cancelB (s : SysState) (id : String)
      (h : ∃ j, s.jobs.lookup id = some j ∧ j.status = JobStatus.cancelled) :
      Step s (cancelRemoveFromQueue s id)
  | finishA (s : SysState) (id : String) (ok : Bool) (msg : String)
      (h : id ∈ s.running) : Step s (finishStatus s id ok msg)
  | finishB (s : SysState) (id : String) (h : id ∈ s.running) :
      Step s (finishRemove s id)

/-- States reachable from the startup state. -/
inductive Reachable : SysState → Prop where
  | init : Reachable initState
  | step {s s' : SysState} : Reachable s → Step s s' → Reachable s'

/-- Status of a job id as stored. -/
def statusOf (s : SysState) (id : String) : Option JobStatus :=
  (s.jobs.lookup id).map Job.status

/-- Branch of a job id as stored. -/
def branchOf (s : SysState) (id : String) : Option String :=
  (s.jobs.lookup id).map Job.branch

/-- The branch FIFO of `b` in state `s`. -/
def queueOf (s : SysState) (b : String) : List String :=
  getQueue s.queues b

/-- The ids a history records for branch `b`, in order. -/
def histOf (h : List (String × String)) (b : String) : List String :=
  (h.filter fun p => p.1 == b).map Prod.snd

/-- A job id not (yet) cancelled. -/
def alive (s : SysState) (id : String) : Bool :=
  statusOf s id != some JobStatus.cancelled

/-! ## Claims C1 and C2 (concrete executions) -/

/-- A pending tissue-mask job on branch `b` owned by user `u`. -/
def mkJob (i b u : String) : Job :=
  { job_id := i, workflow_id := "w", branch := b, user_id := u,
    job_type := JobType.tissueMask, wsi_path := "p",
    status := JobStatus.pending, progress := 0, error_message := none }

/-- Four pending jobs from four distinct users on four distinct branches. -/
def c1Submitted : SysState :=
  submitJob (submitJob (submitJob (submitJob initState
    (mkJob ("j1") "b1" "u1")) (mkJob ("j2") "b2" "u2"))
    (mkJob ("j3") "b3" "u3")) (mkJob ("j4") "b4" "u4")

/-- The state after one scheduler cycle over `c1Submitted`. -/
def c1After : SysState := schedulerCycle c1Submitted

/-- C1 is violated by the code: `scheduler_loop` recomputes
`current_active_users` before the selection loop (lines 22-27) and only adds
a selected job's user at line 87 — in the start loop, after all selection
checks have already run — so the line-64 limit check never counts jobs
selected earlier in the same cycle.  From an idle state, one cycle over four
pending head jobs of four distinct users admits all four: the running set
then holds four jobs whose distinct-user count is `4 > ACTIVE_USERS_LIMIT`,
violating the claimed invariant.  The code's own comments (lines 9, 62-63:
"max number of distinct users with RUNNING jobs", "Enforce max 3 active
users") state the intended rule, so this is a code bug. -/
theorem c1_active_users_limit_violated :
    Reachable c1After ∧
    c1After.running = ["j1", "j2", "j3", "j4"] ∧
    activeUsers c1After.jobs c1After.running = ["u1", "u2", "u3", "u4"] ∧
    ACTIVE_USERS_LIMIT < (activeUsers c1After.jobs c1After.running).length := by
  refine ⟨?_, by decide, by decide, by decide⟩
  exact (((((Reachable.init.step
    (Step.submit _ _ (by decide) rfl)).step
    (Step.submit _ _ (by decide) rfl)).step
    (Step.submit _ _ (by decide) rfl)).step
    (Step.submit _ _ (by decide) rfl)).step
    (Step.cycle _))

/-- The job cancelled in the C2 counterexample. -/
def c2Job : Job := mkJob ("cj") "bb" "uu"

/-- The state after `cancel_job`'s first step (status written at `main.py`
line 190) and before its second (queue removal under the lock, lines
193-196). -/
def c2Mid : SysState :=
  { jobs := [(c2Job.job_id, { c2Job with status := JobStatus.cancelled })]
    queues := [(c2Job.branch, [c2Job.job_id])]
    running := []
    enqHist := [(c2Job.branch, c2Job.job_id)]
    runHist := [] }

/-- C2 as stated is false: cancellation is NOT one atomic step under the
mutation discipline.  The `PENDING` check and the `CANCELLED` write (lines
183-190) run outside the `state_lock` section that removes the id from its
branch queue (lines 193-196), so the system passes through a reachable
intermediate state in which the job's status is already `CANCELLED` while its
id is still in the branch queue — and a full scheduler cycle can interleave
right there (`Step.cycle` is enabled), observably evicting the stale head
itself.  (The claim's final consequence is still true; see the amended
theorem.) -/
theorem c2_cancel_two_steps_counterexample :
    cancelCheckAndSet (submitJob initState c2Job) c2Job.job_id = some c2Mid ∧
    Reachable c2Mid ∧
    statusOf c2Mid c2Job.job_id = some JobStatus.cancelled ∧
    c2Job.job_id ∈ queueOf c2Mid c2Job.branch ∧
    Step c2Mid (schedulerCycle c2Mid) ∧
    queueOf (schedulerCycle c2Mid) c2Job.branch = [] := by
  have h1 : cancelCheckAndSet (submitJob initState c2Job) c2Job.job_id
      = some c2Mid := by decide
  refine ⟨h1, ?_, by decide, by decide, Step.cycle _, by decide⟩
  exact (Reachable.init.step (Step.submit _ _ (by decide) rfl)).step
    (Step.cancelA _ _ _ h1)

/-- C2 (amended): cancellation is two atomic blocks, not one — the
`PENDING` check plus `CANCELLED` write (no suspension point between them),
then the queue removal in a separate critical section, between which a
scheduler cycle may interleave (benignly: the stale head is lazily evicted).
The claim's consequence does hold: the check-and-set refuses any job that is
not `PENDING`, so a `RUNNING` job is never set to `CANCELLED` by the cancel
operation; and the queue-removal step never modifies any job record. -/
theorem c2_cancel_never_cancels_running (s : SysState) (id : String) (j : Job)
    (hj : s.jobs.lookup id = some j) (hr : j.status = JobStatus.running) :
    cancelCheckAndSet s id = none ∧
    (cancelRemoveFromQueue s id).jobs = s.jobs := by
  constructor
  · simp [cancelCheckAndSet, hj, hr]
  · simp [cancelRemoveFromQueue, hj]

/-- A state holding one running job, for the C2 witness. -/
def c2RunState : SysState :=
  { jobs := [(c2Job.job_id, { c2Job with status := JobStatus.running })]
    queues := [(c2Job.branch, [])]
    running := [c2Job.job_id]
    enqHist := [(c2Job.branch, c2Job.job_id)]
    runHist := [(c2Job.branch, c2Job.job_id)] }

/-- Witness for the amended C2 at a concrete state with a running job. -/
theorem c2_cancel_never_cancels_running_witness :
    c2RunState.jobs.lookup c2Job.job_id
      = some { c2Job with status := JobStatus.running } ∧
    ({ c2Job with status := JobStatus.running } : Job).status
      = JobStatus.running ∧
    (cancelCheckAndSet c2RunState c2Job.job_id = none ∧
      (cancelRemoveFromQueue c2RunState c2Job.job_id).jobs
        = c2RunState.jobs) :=
  ⟨by decide, rfl, c2_cancel_never_cancels_running c2RunState c2Job.job_id
    { c2Job with status := JobStatus.running } (by decide) rfl⟩

/-! ## Association-list lemmas -/

theorem lookup_keys_ne {β : Type} (m : List (String × β)) (k : String)
    (h : m.lookup k = none) : ∀ p ∈ m, p.1 ≠ k := by
  induction m with
  | nil =>
    intro p hp
    exact absurd hp (List.not_mem_nil p)
  | cons q m ih =>
    intro p hp
    cases hk : (k == q.1) with
    | false =>
      rcases List.mem_cons.mp hp with hp | hp
      · subst hp
        intro hcon
        subst hcon
        simp at hk
      · exact ih (by simpa [List.lookup, hk] using h) p hp
    | true => simp [List.lookup, hk] at h

theorem lookup_append_none {β : Type} (l1 l2 : List (String × β)) (k : String)
    (h : l1.lookup k = none) : (l1 ++ l2).lookup k = l2.lookup k := by
  induction l1 with
  | nil => rfl
  | cons p l1 ih =>
    cases hk : (k == p.1) with
    | false => simpa [List.lookup, hk] using ih (by simpa [List.lookup, hk] using h)
    | true => simp [List.lookup, hk] at h

theorem lookup_append_some {β : Type} (l1 l2 : List (String × β)) (k : String)
    (v : β) (h : l1.lookup k = some v) : (l1 ++ l2).lookup k = some v := by
  induction l1 with
  | nil => simp [List.lookup] at h
  | cons p l1 ih =>
    cases hk : (k == p.1) with
    | false => simpa [List.lookup, hk] using ih (by simpa [List.lookup, hk] using h)
    | true => simpa [List.lookup, hk] using by simpa [List.lookup, hk] using h

theorem lookup_mapEntries {β : Type} (m : List (String × β)) (f : String → β → β)
    (k : String) :
    (m.map fun p => (p.1, f p.1 p.2)).lookup k = (m.lookup k).map (f k) := by
  induction m with
  | nil => rfl
  | cons p m ih =>
    cases hk : (k == p.1) with
    | false => simpa [List.lookup, hk] using ih
    | true =>
      have hkp : k = p.1 := by simpa using hk
      subst hkp
      simp [List.lookup]

theorem mem_of_lookup_eq_some {β : Type} (m : List (String × β)) (k : String)
    (v : β) (h : m.lookup k = some v) : (k, v) ∈ m := by
  induction m with
  | nil => simp [List.lookup] at h
  | cons p m ih =>
    cases hk : (k == p.1) with
    | false => exact List.mem_cons_of_mem p (ih (by simpa [List.lookup, hk] using h))
    | true =>
      have hkp : k = p.1 := by simpa using hk
      subst hkp
      have : p.2 = v := by simpa [List.lookup, hk] using h
      subst this
      exact List.mem_cons_self p m

theorem lookup_eq_of_mem_nodupKeys {β : Type} (m : List (String × β))
    (hk : (m.map Prod.fst).Nodup) (b : String) (q : β) (hm : (b, q) ∈ m) :
    m.lookup b = some q := by
  induction m with
  | nil => exact absurd hm (List.not_mem_nil _)
  | cons p m ih =>
    rcases List.mem_cons.mp hm with hm | hm
    · subst hm
      simp [List.lookup]
    · have hne : b ≠ p.1 := by
        intro hcon
        subst hcon
        have : p.1 ∈ m.map Prod.fst :=
          List.mem_map.mpr ⟨(p.1, q), hm, rfl⟩
        rw [List.map_cons] at hk
        exact (List.nodup_cons.mp hk).1 this
      have hb : (b == p.1) = false := by simpa using hne
      simp only [List.lookup, hb]
      exact ih (by rw [List.map_cons] at hk; exact (List.nodup_cons.mp hk).2) hm

/-- Pointwise form of `updJob` as a key-preserving entry map. -/
theorem updJob_eq_mapEntries (m : List (String × Job)) (id : String)
    (f : Job → Job) :
    updJob m id f = m.map fun p => (p.1, if p.1 = id then f p.2 else p.2) := by
  rw [updJob]
  apply List.map_congr_left
  intro p _
  by_cases hp : p.1 = id <;> simp [hp]

theorem lookup_updJob (m : List (String × Job)) (id : String) (f : Job → Job)
    (k : String) :
    (updJob m id f).lookup k =
      (m.lookup k).map fun v => if k = id then f v else v := by
  rw [updJob_eq_mapEntries]
  exact lookup_mapEntries m (fun a v => if a = id then f v else v) k

theorem lookup_updJob_self (m : List (String × Job)) (id : String)
    (f : Job → Job) : (updJob m id f).lookup id = (m.lookup id).map f := by
  rw [lookup_updJob]
  cases m.lookup id <;> simp

theorem lookup_updJob_ne (m : List (String × Job)) (id : String) (f : Job → Job)
    (k : String) (h : k ≠ id) : (updJob m id f).lookup k = m.lookup k := by
  rw [lookup_updJob]
  cases m.lookup k <;> simp [h]

theorem setJob_eq_mapEntries (m : List (String × Job)) (id : String) (j : Job)
    (h : (m.lookup id).isSome) :
    setJob m id j = m.map fun p => (p.1, if p.1 = id then j else p.2) := by
  rw [setJob, if_pos h]
  apply List.map_congr_left
  intro p _
  by_cases hp : p.1 = id <;> simp [hp]

theorem lookup_setJob_self (m : List (String × Job)) (id : String) (j : Job) :
    (setJob m id j).lookup id = some j := by
  rcases h : m.lookup id with _ | v
  · rw [setJob, if_neg (by rw [h]; exact Bool.false_ne_true),
      lookup_append_none m _ id h]
    have hb : (id == id) = true := by simp
    simp [List.lookup, hb]
  · rw [setJob_eq_mapEntries m id j (by rw [h]; rfl)]
    rw [lookup_mapEntries m (fun a v => if a = id then j else v) id, h]
    simp

theorem lookup_setJob_ne (m : List (String × Job)) (id : String) (j : Job)
    (k : String) (h : k ≠ id) : (setJob m id j).lookup k = m.lookup k := by
  rcases h0 : m.lookup id with _ | v
  · rw [setJob, if_neg (by rw [h0]; exact Bool.false_ne_true)]
    rcases hk : m.lookup k with _ | w
    · rw [lookup_append_none m _ k hk]
      have hb : (k == id) = false := by simpa using h
      simp [List.lookup, hb]
    · rw [lookup_append_some m _ k w hk]
  · rw [setJob_eq_mapEntries m id j (by rw [h0]; rfl)]
    rw [lookup_mapEntries m (fun a v => if a = id then j else v) k]
    cases m.lookup k <;> simp [h]

theorem getQueue_mapEntries (qs : List (String × List String))
    (f : String → List String → List String) (b : String) :
    getQueue (qs.map fun p => (p.1, f p.1 p.2)) b = f b (getQueue qs b)
      ∨ (getQueue (qs.map fun p => (p.1, f p.1 p.2)) b = [] ∧
         getQueue qs b = []) := by
  rw [getQueue, getQueue, lookup_mapEntries]
  cases qs.lookup b with
  | none => right; exact ⟨rfl, rfl⟩
  | some q => left; rfl

/-- The head-popping value update of `popIfHead`. -/
def popHeadIf (id : String) (q : List String) : List String :=
  match q with
  | [] => []
  | h :: t => if h = id then t else h :: t

theorem popIfHead_eq_mapEntries (qs : List (String × List String))
    (b id : String) :
    popIfHead qs b id =
      qs.map fun p => (p.1, if p.1 = b then popHeadIf id p.2 else p.2) := by
  rw [popIfHead]
  apply List.map_congr_left
  intro p _
  obtain ⟨p1, p2⟩ := p
  by_cases hp : p1 = b
  · subst hp
    cases p2 with
    | nil => simp [popHeadIf]
    | cons h t =>
      by_cases hh : h = id <;> simp [popHeadIf, hh]
  · simp [hp]

theorem getQueue_popIfHead_self (qs : List (String × List String))
    (b id : String) :
    getQueue (popIfHead qs b id) b = popHeadIf id (getQueue qs b) := by
  rw [popIfHead_eq_mapEntries]
  rcases getQueue_mapEntries qs (fun a q => if a = b then popHeadIf id q else q)
      b with h | ⟨h1, h2⟩
  · rw [h]
    simp
  · rw [h1, h2]
    rfl

theorem getQueue_popIfHead_ne (qs : List (String × List String))
    (b id b' : String) (h : b' ≠ b) :
    getQueue (popIfHead qs b id) b' = getQueue qs b' := by
  rw [popIfHead_eq_mapEntries, getQueue, getQueue,
    lookup_mapEntries qs (fun a q => if a = b then popHeadIf id q else q) b']
  cases qs.lookup b' <;> simp [h]

theorem enqueue_eq_mapEntries (qs : List (String × List String)) (b id : String)
    (h : (qs.lookup b).isSome) :
    enqueue_job qs b id =
      qs.map fun p => (p.1, if p.1 = b then p.2 ++ [id] else p.2) := by
  rw [enqueue_job, if_pos h]
  apply List.map_congr_left
  intro p _
  by_cases hp : p.1 = b <;> simp [hp]

theorem getQueue_enqueue_self (qs : List (String × List String))
    (b id : String) :
    getQueue (enqueue_job qs b id) b = getQueue qs b ++ [id] := by
  rcases h : qs.lookup b with _ | q
  · rw [enqueue_job, if_neg (by rw [h]; exact Bool.false_ne_true)]
    rw [getQueue, lookup_append_none qs _ b h, getQueue, h]
    have hb : (b == b) = true := by simp
    simp [List.lookup, hb]
  · rw [enqueue_eq_mapEntries qs b id (by rw [h]; rfl)]
    rw [getQueue, lookup_mapEntries qs (fun a q => if a = b then q ++ [id] else q) b,
      h, getQueue, h]
    simp

theorem getQueue_enqueue_ne (qs : List (String × List String))
    (b id b' : String) (h : b' ≠ b) :
    getQueue (enqueue_job qs b id) b' = getQueue qs b' := by
  rcases h0 : qs.lookup b with _ | q
  · rw [enqueue_job, if_neg (by rw [h0]; exact Bool.false_ne_true)]
    rcases hk : qs.lookup b' with _ | w
    · rw [getQueue, lookup_append_none qs _ b' hk]
      have hb : (b' == b) = false := by simpa using h
      simp [List.lookup, hb, getQueue, hk]
    · rw [getQueue, lookup_append_some qs _ b' w hk, getQueue, hk]
  · rw [enqueue_eq_mapEntries qs b id (by rw [h0]; rfl)]
    rw [getQueue, lookup_mapEntries qs (fun a q => if a = b then q ++ [id] else q) b',
      getQueue]
    cases qs.lookup b' <;> simp [h]

theorem getQueue_eraseMap_self (qs : List (String × List String))
    (b id : String) :
    getQueue (qs.map fun p => if p.1 = b then (p.1, p.2.erase id) else p) b =
      (getQueue qs b).erase id := by
  have heq : (qs.map fun p => if p.1 = b then (p.1, p.2.erase id) else p)
      = qs.map fun p => (p.1, if p.1 = b then p.2.erase id else p.2) := by
    apply List.map_congr_left
    intro p _
    by_cases hp : p.1 = b <;> simp [hp]
  rw [heq, getQueue, lookup_mapEntries qs
    (fun a q => if a = b then q.erase id else q) b, getQueue]
  cases qs.lookup b <;> simp

theorem getQueue_eraseMap_ne (qs : List (String × List String))
    (b id b' : String) (h : b' ≠ b) :
    getQueue (qs.map fun p => if p.1 = b then (p.1, p.2.erase id) else p) b' =
      getQueue qs b' := by
  have heq : (qs.map fun p => if p.1 = b then (p.1, p.2.erase id) else p)
      = qs.map fun p => (p.1, if p.1 = b then p.2.erase id else p.2) := by
    apply List.map_congr_left
    intro p _
    by_cases hp : p.1 = b <;> simp [hp]
  rw [heq, getQueue, lookup_mapEntries qs
    (fun a q => if a = b then q.erase id else q) b', getQueue]
  cases qs.lookup b' <;> simp [h]

theorem keys_mapEntries {β : Type} (m : List (String × β))
    (f : String → β → β) :
    ((m.map fun p => (p.1, f p.1 p.2)).map Prod.fst) = m.map Prod.fst := by
  induction m with
  | nil => rfl
  | cons p m ih => simp [ih]

/-! ## Claim C10 (`add_job`, `app/state.py` lines 28-37) -/

theorem map_eq_self {α : Type} (l : List α) (f : α → α)
    (h : ∀ a ∈ l, f a = a) : l.map f = l := by
  induction l with
  | nil => rfl
  | cons a l ih =>
    rw [List.map_cons, h a (List.mem_cons_self a l),
      ih fun a ha => h a (List.mem_cons_of_mem _ ha)]

theorem setJob_setJob (m : List (String × Job)) (id : String) (j : Job) :
    setJob (setJob m id j) id j = setJob m id j := by
  rcases h : m.lookup id with _ | v
  · have h1 : setJob m id j = m ++ [(id, j)] := by
      rw [setJob, if_neg (by rw [h]; exact Bool.false_ne_true)]
    have h2 : ((m ++ [(id, j)]).lookup id).isSome := by
      rw [lookup_append_none m _ id h]
      have hb : (id == id) = true := by simp
      simp [List.lookup, hb]
    rw [h1, setJob_eq_mapEntries _ id j h2, List.map_append]
    congr 1
    · apply map_eq_self
      intro p hp
      have := lookup_keys_ne m id h p hp
      simp [this]
    · simp
  · have h1 : setJob m id j = m.map fun p => (p.1, if p.1 = id then j else p.2) :=
      setJob_eq_mapEntries m id j (by rw [h]; rfl)
    have h2 : ((setJob m id j).lookup id).isSome := by
      rw [lookup_setJob_self]
      rfl
    rw [setJob_eq_mapEntries _ id j h2, h1, List.map_map]
    apply List.map_congr_left
    intro p _
    obtain ⟨p1, p2⟩ := p
    by_cases hp : p1 = id <;> simp [hp]

/-- The store collections `add_job` touches: `WORKFLOWS` and `JOBS`. -/
structure StoreState where
  workflows : List (String × Workflow)
  jobs : List (String × Job)
deriving DecidableEq, Repr

/-- The line-36 guarded append of `add_job`: add the job to the workflow's
list unless a member already carries its `job_id`. -/
def wfAdd (j : Job) (w : Workflow) : Workflow :=
  if w.jobs.any (fun jj => jj.job_id == j.job_id) then w
  else { w with jobs := w.jobs ++ [j] }

/-- The `add_job` (`app/state.py` lines 28-37): assign `JOBS[job_id] = job`; if
the job's workflow is registered (`job.workflow_id in WORKFLOWS`), apply the
guarded append to that workflow's `jobs` list. -/
def add_job (st : StoreState) (j : Job) : StoreState :=
  { jobs := setJob st.jobs j.job_id j
    workflows :=
      if (st.workflows.lookup j.workflow_id).isSome then
        st.workflows.map fun p =>
          if p.1 = j.workflow_id then (p.1, wfAdd j p.2) else p
      else st.workflows }

theorem wfAdd_idem (j : Job) (w : Workflow) : wfAdd j (wfAdd j w) = wfAdd j w := by
  rcases hany : w.jobs.any (fun jj => jj.job_id == j.job_id) with _ | _
  · have h1 : wfAdd j w = { w with jobs := w.jobs ++ [j] } := by
      rw [wfAdd, hany]
      rfl
    have hany2 : (w.jobs ++ [j]).any (fun jj => jj.job_id == j.job_id) = true := by
      rw [List.any_append]
      simp
    rw [h1, wfAdd]
    simp [hany2]
  · have h1 : wfAdd j w = w := by
      rw [wfAdd, hany]
      rfl
    rw [h1, h1]

theorem add_job_workflows_mapEntries (st : StoreState) (j : Job)
    (h : (st.workflows.lookup j.workflow_id).isSome) :
    (add_job st j).workflows = st.workflows.map fun p =>
      (p.1, if p.1 = j.workflow_id then wfAdd j p.2 else p.2) := by
  rw [add_job]
  simp only [if_pos h]
  apply List.map_congr_left
  intro p _
  obtain ⟨p1, p2⟩ := p
  by_cases hp : p1 = j.workflow_id <;> simp [hp]

theorem storeState_ext (a b : StoreState) (h1 : a.workflows = b.workflows)
    (h2 : a.jobs = b.jobs) : a = b := by
  cases a
  cases b
  cases h1
  cases h2
  rfl

theorem add_job_idem (st : StoreState) (j : Job) :
    add_job (add_job st j) j = add_job st j := by
  have hjobs : (add_job (add_job st j) j).jobs = (add_job st j).jobs := by
    show setJob (setJob st.jobs j.job_id j) j.job_id j = setJob st.jobs j.job_id j
    exact setJob_setJob st.jobs j.job_id j
  refine storeState_ext _ _ ?_ hjobs
  rcases h : st.workflows.lookup j.workflow_id with _ | wf
  · have hnone : ¬ ((st.workflows.lookup j.workflow_id).isSome = true) := by
      rw [h]
      exact Bool.false_ne_true
    have h1 : (add_job st j).workflows = st.workflows := by
      rw [add_job]
      simp only [if_neg hnone]
    show (if ((add_job st j).workflows.lookup j.workflow_id).isSome then _ else
      (add_job st j).workflows) = (add_job st j).workflows
    rw [h1]
    simp only [if_neg hnone]
  · have hs : (st.workflows.lookup j.workflow_id).isSome := by
      rw [h]
      rfl
    have h1 := add_job_workflows_mapEntries st j hs
    have hlk : (add_job st j).workflows.lookup j.workflow_id
        = some (wfAdd j wf) := by
      rw [h1, lookup_mapEntries st.workflows
        (fun a w => if a = j.workflow_id then wfAdd j w else w) j.workflow_id, h]
      simp
    have hs2 : ((add_job st j).workflows.lookup j.workflow_id).isSome := by
      rw [hlk]
      rfl
    rw [add_job_workflows_mapEntries (add_job st j) j hs2, h1, List.map_map]
    apply List.map_congr_left
    intro p _
    obtain ⟨p1, p2⟩ := p
    by_cases hp : p1 = j.workflow_id
    · simp [hp, wfAdd_idem]
    · simp [hp]

/-- C10: `add_job` is idempotent.  Calling it twice with the same job equals
calling it once — so, in particular, the `JOBS` map is the same — and when the
job's workflow is registered and does not yet list the job, the workflow's
`jobs` list afterwards holds exactly one entry with that `job_id` (the line-36
membership check blocks the second append). -/
theorem c10_add_job_idempotent (st : StoreState) (j : Job) (wf : Workflow)
    (hwf : st.workflows.lookup j.workflow_id = some wf)
    (hcount : wf.jobs.countP (fun jj => jj.job_id == j.job_id) = 0) :
    add_job (add_job st j) j = add_job st j ∧
    (add_job (add_job st j) j).jobs = (add_job st j).jobs ∧
    ∃ wf', (add_job (add_job st j) j).workflows.lookup j.workflow_id
        = some wf' ∧
      wf'.jobs.countP (fun jj => jj.job_id == j.job_id) = 1 := by
  have hidem := add_job_idem st j
  refine ⟨hidem, by rw [hidem], ?_⟩
  rw [hidem]
  have hany : wf.jobs.any (fun jj => jj.job_id == j.job_id) = false := by
    rw [List.any_eq_false]
    intro jj hjj
    have := List.countP_eq_zero.mp hcount jj hjj
    simpa using this
  have h1 := add_job_workflows_mapEntries st j (by rw [hwf]; rfl)
  have hcna : ¬ (wf.jobs.any (fun jj => jj.job_id == j.job_id) = true) := by
    rw [hany]
    exact Bool.false_ne_true
  have hwfadd : wfAdd j wf = { wf with jobs := wf.jobs ++ [j] } := by
    rw [wfAdd, if_neg hcna]
  refine ⟨{ wf with jobs := wf.jobs ++ [j] }, ?_, ?_⟩
  · rw [h1, lookup_mapEntries st.workflows
      (fun a w => if a = j.workflow_id then wfAdd j w else w) j.workflow_id,
      hwf]
    rw [Option.map_some', if_pos rfl, hwfadd]
  · rw [List.countP_append, hcount]
    simp

/-- A one-workflow store for the C10 witness. -/
def c10Store : StoreState :=
  { workflows := [("w", { workflow_id := "w", user_id := "u", jobs := [] })]
    jobs := [] }

/-- Witness for C10 at a concrete store holding one empty workflow. -/
theorem c10_add_job_idempotent_witness :
    c10Store.workflows.lookup (mkJob ("jx") "b" "u").workflow_id
      = some { workflow_id := "w", user_id := "u", jobs := [] } ∧
    (({ workflow_id := "w", user_id := "u", jobs := [] } : Workflow)).jobs.countP
      (fun jj => jj.job_id == (mkJob ("jx") "b" "u").job_id) = 0 ∧
    (add_job (add_job c10Store (mkJob ("jx") "b" "u")) (mkJob ("jx") "b" "u")
        = add_job c10Store (mkJob ("jx") "b" "u") ∧
      (add_job (add_job c10Store (mkJob ("jx") "b" "u")) (mkJob ("jx") "b" "u")).jobs
        = (add_job c10Store (mkJob ("jx") "b" "u")).jobs ∧
      ∃ wf', (add_job (add_job c10Store (mkJob ("jx") "b" "u"))
            (mkJob ("jx") "b" "u")).workflows.lookup
            (mkJob ("jx") "b" "u").workflow_id = some wf' ∧
        wf'.jobs.countP
          (fun jj => jj.job_id == (mkJob ("jx") "b" "u").job_id) = 1) :=
  ⟨by decide, by decide,
    c10_add_job_idempotent c10Store (mkJob ("jx") "b" "u")
      { workflow_id := "w", user_id := "u", jobs := [] }
      (by decide) (by decide)⟩

/-! ## Reachable-state invariants (Claims C4, C5, C6) -/

/-- Invariants maintained by every system step.  `fifo` is the heart of C4:
per branch, the enqueue history restricted to never-cancelled ids equals the
admission history followed by the not-cancelled part of the current queue —
so admissions happen in enqueue order, skipping exactly the cancelled jobs. -/
structure Inv (s : SysState) : Prop where
  jobs_keyed : ∀ pr ∈ s.jobs, pr.2.job_id = pr.1
  qkeys_nodup : (s.queues.map Prod.fst).Nodup
  qjobs : ∀ b, ∀ id ∈ queueOf s b, ∃ j, s.jobs.lookup id = some j ∧
    j.branch = b ∧ (j.status = JobStatus.pending ∨ j.status = JobStatus.cancelled)
  qnodup : ∀ b, (queueOf s b).Nodup
  run_nodup : s.running.Nodup
  run_le : s.running.length ≤ MAX_WORKERS
  run_jobs : ∀ id ∈ s.running, ∃ j, s.jobs.lookup id = some j ∧
    (j.status = JobStatus.running ∨ j.status = JobStatus.succeeded ∨
      j.status = JobStatus.failed)
  run_branches : s.running.Pairwise fun i1 i2 => branchOf s i1 ≠ branchOf s i2
  enq_nodup : (s.enqHist.map Prod.snd).Nodup
  enq_dom : ∀ p ∈ s.enqHist, ∃ j, s.jobs.lookup p.2 = some j ∧ j.branch = p.1
  adm_facts : ∀ p ∈ s.runHist, ∃ j, s.jobs.lookup p.2 = some j ∧ j.branch = p.1 ∧
    (j.status = JobStatus.running ∨ j.status = JobStatus.succeeded ∨
      j.status = JobStatus.failed)
  fifo : ∀ b, (histOf s.enqHist b).filter (alive s) =
    histOf s.runHist b ++ (queueOf s b).filter (alive s)

theorem inv_init : Inv initState := by
  constructor <;>
    simp [initState, queueOf, getQueue, List.lookup, histOf, MAX_WORKERS]

theorem lookup_updJob_cases (m : List (String × Job)) (id : String)
    (f : Job → Job) (k : String) :
    (updJob m id f).lookup k =
      if k = id then (m.lookup k).map f else m.lookup k := by
  rw [lookup_updJob]
  by_cases h : k = id <;> cases m.lookup k <;> simp [h]

theorem filter_eq_filter_of_ne (l : List String) (p p' : String → Bool)
    (id : String) (hpp : ∀ x, x ≠ id → p' x = p x) (hid : id ∉ l) :
    l.filter p' = l.filter p := by
  apply List.filter_congr
  intro x hx
  exact hpp x fun hcon => hid (hcon ▸ hx)

theorem filter_and_ne (l : List String) (p p' : String → Bool) (id : String)
    (hpid : p' id = false) (hother : ∀ x, x ≠ id → p' x = p x) :
    l.filter p' = (l.filter p).filter fun x => x != id := by
  induction l with
  | nil => rfl
  | cons a l ih =>
    by_cases ha : a = id
    · subst ha
      rw [List.filter_cons, List.filter_cons, hpid]
      cases hpa : p a with
      | false =>
        simp only [Bool.false_eq_true, if_neg, reduceIte]
        exact ih
      | true =>
        simp only [reduceIte, List.filter_cons]
        have : (a != a) = false := by simp
        rw [this]
        simp only [Bool.false_eq_true, reduceIte]
        exact ih
    · rw [List.filter_cons, List.filter_cons, hother a ha]
      cases hpa : p a with
      | false =>
        simp only [Bool.false_eq_true, reduceIte]
        exact ih
      | true =>
        simp only [reduceIte, List.filter_cons]
        have : (a != id) = true := by simpa using ha
        rw [this]
        simp only [reduceIte]
        rw [ih]

theorem filter_ne_of_not_mem (l : List String) (id : String) (h : id ∉ l) :
    (l.filter fun x => x != id) = l := by
  apply List.filter_eq_self.mpr
  intro a ha
  have : a ≠ id := by
    intro hcon
    subst hcon
    exact h ha
  simpa using this

theorem filter_erase_of_false (l : List String) (p : String → Bool)
    (a : String) (hp : p a = false) : (l.erase a).filter p = l.filter p := by
  induction l with
  | nil => rfl
  | cons x l ih =>
    by_cases hx : x = a
    · subst hx
      rw [List.erase_cons_head, List.filter_cons, hp]
      simp
    · rw [List.erase_cons_tail (by simpa using hx), List.filter_cons,
        List.filter_cons, ih]

theorem histOf_append (h1 h2 : List (String × String)) (b : String) :
    histOf (h1 ++ h2) b = histOf h1 b ++ histOf h2 b := by
  simp [histOf, List.filter_append]

theorem histOf_single (b' id b : String) :
    histOf [(b', id)] b = if b' = b then [id] else [] := by
  by_cases h : b' = b
  · subst h
    simp [histOf]
  · simp [histOf, h]

theorem mem_histOf (h : List (String × String)) (b x : String)
    (hx : x ∈ histOf h b) : (b, x) ∈ h := by
  rw [histOf] at hx
  obtain ⟨p, hp, hpx⟩ := List.mem_map.mp hx
  have hmem := List.mem_of_mem_filter hp
  have hb : p.1 = b := by
    have := List.of_mem_filter hp
    simpa using this
  obtain ⟨p1, p2⟩ := p
  cases hb
  cases hpx
  exact hmem

theorem pairwise_branchOf_congr (l : List String) (s s' : SysState)
    (h : ∀ x ∈ l, branchOf s' x = branchOf s x)
    (hp : l.Pairwise fun i1 i2 => branchOf s i1 ≠ branchOf s i2) :
    l.Pairwise fun i1 i2 => branchOf s' i1 ≠ branchOf s' i2 := by
  induction l with
  | nil => exact List.Pairwise.nil
  | cons a l ih =>
    rcases List.pairwise_cons.mp hp with ⟨ha, hl⟩
    refine List.pairwise_cons.mpr
      ⟨?_, ih (fun x hx => h x (List.mem_cons_of_mem _ hx)) hl⟩
    intro c hc
    rw [h a (List.mem_cons_self _ _), h c (List.mem_cons_of_mem _ hc)]
    exact ha c hc

theorem keys_not_mem_of_lookup_none {β : Type} (m : List (String × β))
    (k : String) (h : m.lookup k = none) : k ∉ m.map Prod.fst := by
  intro hcon
  obtain ⟨p, hp, hpk⟩ := List.mem_map.mp hcon
  exact lookup_keys_ne m k h p hp hpk

/-- The `submitJob` preserves the invariants. -/
theorem inv_submit (s : SysState) (j : Job) (inv : Inv s)
    (hfresh : s.jobs.lookup j.job_id = none)
    (hst : j.status = JobStatus.pending) : Inv (submitJob s j) := by
  have hjobs : (submitJob s j).jobs = setJob s.jobs j.job_id j := rfl
  have hlk_ne : ∀ k, k ≠ j.job_id →
      (submitJob s j).jobs.lookup k = s.jobs.lookup k := by
    intro k hk
    rw [hjobs, lookup_setJob_ne _ _ _ _ hk]
  have hlk_self : (submitJob s j).jobs.lookup j.job_id = some j := by
    rw [hjobs, lookup_setJob_self]
  have hq_self : queueOf (submitJob s j) j.branch
      = queueOf s j.branch ++ [j.job_id] := by
    show getQueue (enqueue_job s.queues j.branch j.job_id) j.branch = _
    rw [getQueue_enqueue_self]
    rfl
  have hq_ne : ∀ b, b ≠ j.branch →
      queueOf (submitJob s j) b = queueOf s b := by
    intro b hb
    show getQueue (enqueue_job s.queues j.branch j.job_id) b = _
    rw [getQueue_enqueue_ne _ _ _ _ hb]
    rfl
  have hq_id_out : ∀ b id, id ∈ queueOf s b → id ≠ j.job_id := by
    intro b id hid hcon
    obtain ⟨j0, hj0, _, _⟩ := inv.qjobs b id hid
    subst hcon
    rw [hfresh] at hj0
    cases hj0
  have henq_id_out : ∀ p ∈ s.enqHist, p.2 ≠ j.job_id := by
    intro p hp hcon
    obtain ⟨j0, hj0, _⟩ := inv.enq_dom p hp
    rw [hcon, hfresh] at hj0
    cases hj0
  have hrun_id_out : ∀ id ∈ s.running, id ≠ j.job_id := by
    intro id hid hcon
    obtain ⟨j0, hj0, _⟩ := inv.run_jobs id hid
    rw [hcon, hfresh] at hj0
    cases hj0
  have hadm_id_out : ∀ p ∈ s.runHist, p.2 ≠ j.job_id := by
    intro p hp hcon
    obtain ⟨j0, hj0, _⟩ := inv.adm_facts p hp
    rw [hcon, hfresh] at hj0
    cases hj0
  have halive : ∀ x, x ≠ j.job_id → alive (submitJob s j) x = alive s x := by
    intro x hx
    rw [alive, alive, statusOf, statusOf, hlk_ne x hx]
  have halive_self : alive (submitJob s j) j.job_id = true := by
    rw [alive, statusOf, hlk_self]
    simp [hst]
  constructor
  case jobs_keyed =>
    intro pr hpr
    rw [hjobs, setJob] at hpr
    by_cases hSome : ((s.jobs.lookup j.job_id).isSome = true)
    · rw [if_pos hSome] at hpr
      obtain ⟨p0, hp0, hmap⟩ := List.mem_map.mp hpr
      by_cases hk : p0.1 = j.job_id
      · rw [if_pos hk] at hmap
        rw [← hmap, hk]
      · rw [if_neg hk] at hmap
        rw [← hmap]
        exact inv.jobs_keyed p0 hp0
    · rw [if_neg hSome] at hpr
      rcases List.mem_append.mp hpr with hpr | hpr
      · exact inv.jobs_keyed pr hpr
      · have : pr = (j.job_id, j) := by simpa using hpr
        rw [this]
  case qkeys_nodup =>
    show ((enqueue_job s.queues j.branch j.job_id).map Prod.fst).Nodup
    rcases h0 : s.queues.lookup j.branch with _ | q
    · rw [enqueue_job, if_neg (by rw [h0]; exact Bool.false_ne_true),
        List.map_append]
      have hnot := keys_not_mem_of_lookup_none s.queues j.branch h0
      simp [List.nodup_append, inv.qkeys_nodup, hnot]
    · rw [enqueue_eq_mapEntries s.queues j.branch j.job_id (by rw [h0]; rfl),
        keys_mapEntries s.queues
          (fun a q => if a = j.branch then q ++ [j.job_id] else q)]
      exact inv.qkeys_nodup
  case qjobs =>
    intro b id hid
    by_cases hb : b = j.branch
    · subst hb
      rw [hq_self] at hid
      rcases List.mem_append.mp hid with hid | hid
      · obtain ⟨j0, hj0, hbr, hs0⟩ := inv.qjobs _ id hid
        exact ⟨j0, by rw [hlk_ne id (hq_id_out _ id hid), hj0], hbr, hs0⟩
      · have : id = j.job_id := by simpa using hid
        subst this
        exact ⟨j, hlk_self, rfl, Or.inl hst⟩
    · rw [hq_ne b hb] at hid
      obtain ⟨j0, hj0, hbr, hs0⟩ := inv.qjobs b id hid
      exact ⟨j0, by rw [hlk_ne id (hq_id_out b id hid), hj0], hbr, hs0⟩
  case qnodup =>
    intro b
    by_cases hb : b = j.branch
    · subst hb
      rw [hq_self]
      simp only [List.nodup_append, List.nodup_cons, List.not_mem_nil,
        not_false_iff, List.nodup_nil, and_true, true_and]
      constructor
      · exact inv.qnodup j.branch
      · intro a ha hmem
        have : a = j.job_id := by simpa using hmem
        exact hq_id_out j.branch a ha this
    · rw [hq_ne b hb]
      exact inv.qnodup b
  case run_nodup => exact inv.run_nodup
  case run_le => exact inv.run_le
  case run_jobs =>
    intro id hid
    obtain ⟨j0, hj0, hs0⟩ := inv.run_jobs id hid
    exact ⟨j0, by rw [hlk_ne id (hrun_id_out id hid), hj0], hs0⟩
  case run_branches =>
    apply pairwise_branchOf_congr _ s _ _ inv.run_branches
    intro x hx
    rw [branchOf, branchOf, hlk_ne x (hrun_id_out x hx)]
  case enq_nodup =>
    show ((s.enqHist ++ [(j.branch, j.job_id)]).map Prod.snd).Nodup
    rw [List.map_append]
    simp only [List.nodup_append, List.map_cons, List.map_nil,
      List.nodup_cons, List.not_mem_nil, not_false_iff, List.nodup_nil,
      and_true, true_and]
    refine ⟨inv.enq_nodup, ?_⟩
    intro a ha hmem
    obtain ⟨p, hp, hpa⟩ := List.mem_map.mp ha
    have : a = j.job_id := by simpa using hmem
    exact henq_id_out p hp (by rw [hpa, this])
  case enq_dom =>
    intro p hp
    rcases List.mem_append.mp hp with hp | hp
    · obtain ⟨j0, hj0, hbr⟩ := inv.enq_dom p hp
      exact ⟨j0, by rw [hlk_ne p.2 (henq_id_out p hp), hj0], hbr⟩
    · have : p = (j.branch, j.job_id) := by simpa using hp
      subst this
      exact ⟨j, hlk_self, rfl⟩
  case adm_facts =>
    intro p hp
    obtain ⟨j0, hj0, hbr, hs0⟩ := inv.adm_facts p hp
    exact ⟨j0, by rw [hlk_ne p.2 (hadm_id_out p hp), hj0], hbr, hs0⟩
  case fifo =>
    intro b
    have hrunHist : (submitJob s j).runHist = s.runHist := rfl
    have henqHist : (submitJob s j).enqHist
        = s.enqHist ++ [(j.branch, j.job_id)] := rfl
    rw [hrunHist, henqHist, histOf_append, histOf_single, List.filter_append]
    have hflt_enq : (histOf s.enqHist b).filter (alive (submitJob s j))
        = (histOf s.enqHist b).filter (alive s) := by
      apply List.filter_congr
      intro x hx
      exact halive x (henq_id_out _ (mem_histOf _ _ _ hx) )
    by_cases hb : j.branch = b
    · subst hb
      rw [if_pos rfl, hq_self, List.filter_append, hflt_enq, inv.fifo j.branch]
      have hflt_q : (queueOf s j.branch).filter (alive (submitJob s j))
          = (queueOf s j.branch).filter (alive s) := by
        apply List.filter_congr
        intro x hx
        exact halive x (hq_id_out _ x hx)
      rw [hflt_q]
      have : ([j.job_id].filter (alive (submitJob s j))) = [j.job_id] := by
        rw [List.filter_cons, halive_self]
        rfl
      rw [this, List.append_assoc]
    · rw [if_neg hb, hq_ne b (fun hcon => hb hcon.symm), hflt_enq,
        inv.fifo b]
      have hflt_q : (queueOf s b).filter (alive (submitJob s j))
          = (queueOf s b).filter (alive s) := by
        apply List.filter_congr
        intro x hx
        exact halive x (hq_id_out b x hx)
      rw [hflt_q]
      simp

theorem cancelCheckAndSet_some (s : SysState) (id : String) (s' : SysState)
    (h : cancelCheckAndSet s id = some s') :
    ∃ j, s.jobs.lookup id = some j ∧ j.status = JobStatus.pending ∧
      s' = { s with jobs := updJob s.jobs id cancelMark } := by
  rcases hlk : s.jobs.lookup id with _ | j
  · simp only [cancelCheckAndSet, hlk] at h
    cases h
  · simp only [cancelCheckAndSet, hlk] at h
    by_cases hs : j.status = JobStatus.pending
    · simp only [hs, ne_eq, not_true_eq_false, if_neg, reduceIte,
        Option.some.injEq] at h
      exact ⟨j, rfl, hs, h.symm⟩
    · simp only [ne_eq, hs, not_false_iff, if_pos, reduceIte] at h
      cases h

theorem branchOf_lookup_updJob (s : SysState) (id : String) (f : Job → Job)
    (hf : ∀ jb, (f jb).branch = jb.branch) (x : String) :
    ((updJob s.jobs id f).lookup x).map Job.branch
      = (s.jobs.lookup x).map Job.branch := by
  rw [lookup_updJob_cases]
  by_cases hx : x = id
  · rw [if_pos hx]
    cases s.jobs.lookup x with
    | none => rfl
    | some j0 => simp [hf j0]
  · rw [if_neg hx]

theorem jobs_keyed_updJob (m : List (String × Job)) (id : String)
    (f : Job → Job) (hf : ∀ jb, (f jb).job_id = jb.job_id)
    (hm : ∀ pr ∈ m, pr.2.job_id = pr.1) :
    ∀ pr ∈ updJob m id f, pr.2.job_id = pr.1 := by
  intro pr hpr
  rw [updJob] at hpr
  obtain ⟨p0, hp0, hmap⟩ := List.mem_map.mp hpr
  by_cases hk : p0.1 = id
  · rw [if_pos hk] at hmap
    rw [← hmap]
    show (f p0.2).job_id = p0.1
    rw [hf p0.2]
    exact hm p0 hp0
  · rw [if_neg hk] at hmap
    rw [← hmap]
    exact hm p0 hp0

/-- The `cancelCheckAndSet` preserves the invariants. -/
theorem inv_cancelA (s : SysState) (id : String) (s' : SysState) (inv : Inv s)
    (h : cancelCheckAndSet s id = some s') : Inv s' := by
  obtain ⟨j, hlk, hpend, hs'⟩ := cancelCheckAndSet_some s id s' h
  subst hs'
  have hlk_ne : ∀ k, k ≠ id →
      (updJob s.jobs id cancelMark).lookup k = s.jobs.lookup k := by
    intro k hk
    rw [lookup_updJob_ne _ _ _ _ hk]
  have hlk_self : (updJob s.jobs id cancelMark).lookup id
      = some (cancelMark j) := by
    rw [lookup_updJob_self, hlk]
    rfl
  have hid_not_run : id ∉ s.running := by
    intro hcon
    obtain ⟨j0, hj0, hs0⟩ := inv.run_jobs id hcon
    rw [hlk] at hj0
    cases hj0
    rcases hs0 with h0 | h0 | h0 <;> rw [h0] at hpend <;> cases hpend
  have hid_not_adm : ∀ p ∈ s.runHist, p.2 ≠ id := by
    intro p hp hcon
    obtain ⟨j0, hj0, _, hs0⟩ := inv.adm_facts p hp
    rw [hcon, hlk] at hj0
    cases hj0
    rcases hs0 with h0 | h0 | h0 <;> rw [h0] at hpend <;> cases hpend
  have hstat_ne : ∀ x, x ≠ id →
      statusOf { s with jobs := updJob s.jobs id cancelMark } x
        = statusOf s x := by
    intro x hx
    show ((updJob s.jobs id cancelMark).lookup x).map Job.status
      = (s.jobs.lookup x).map Job.status
    rw [hlk_ne x hx]
  have halive_ne : ∀ x, x ≠ id →
      alive { s with jobs := updJob s.jobs id cancelMark } x = alive s x := by
    intro x hx
    simp only [alive, hstat_ne x hx]
  have halive_self :
      alive { s with jobs := updJob s.jobs id cancelMark } id = false := by
    have hstat : statusOf { s with jobs := updJob s.jobs id cancelMark } id
        = some JobStatus.cancelled := by
      show ((updJob s.jobs id cancelMark).lookup id).map Job.status = _
      rw [hlk_self]
      rfl
    simp only [alive, hstat]
    rfl
  constructor
  case jobs_keyed =>
    exact jobs_keyed_updJob s.jobs id cancelMark (fun jb => rfl) inv.jobs_keyed
  case qkeys_nodup => exact inv.qkeys_nodup
  case qjobs =>
    intro b id' hid'
    have hq : queueOf { s with jobs := updJob s.jobs id cancelMark } b
        = queueOf s b := rfl
    rw [hq] at hid'
    obtain ⟨j0, hj0, hbr, hs0⟩ := inv.qjobs b id' hid'
    by_cases hx : id' = id
    · subst hx
      rw [hlk] at hj0
      cases hj0
      exact ⟨cancelMark j, hlk_self, hbr, Or.inr rfl⟩
    · exact ⟨j0, by rw [hlk_ne id' hx, hj0], hbr, hs0⟩
  case qnodup => exact inv.qnodup
  case run_nodup => exact inv.run_nodup
  case run_le => exact inv.run_le
  case run_jobs =>
    intro id' hid'
    obtain ⟨j0, hj0, hs0⟩ := inv.run_jobs id' hid'
    have hx : id' ≠ id := fun hcon => hid_not_run (hcon ▸ hid')
    exact ⟨j0, by rw [hlk_ne id' hx, hj0], hs0⟩
  case run_branches =>
    apply pairwise_branchOf_congr _ s _ _ inv.run_branches
    intro x _
    exact branchOf_lookup_updJob s id cancelMark (fun jb => rfl) x
  case enq_nodup => exact inv.enq_nodup
  case enq_dom =>
    intro p hp
    obtain ⟨j0, hj0, hbr⟩ := inv.enq_dom p hp
    by_cases hx : p.2 = id
    · rw [hx, hlk] at hj0
      cases hj0
      exact ⟨cancelMark j, by rw [hx, hlk_self], hbr⟩
    · exact ⟨j0, by rw [hlk_ne p.2 hx, hj0], hbr⟩
  case adm_facts =>
    intro p hp
    obtain ⟨j0, hj0, hbr, hs0⟩ := inv.adm_facts p hp
    exact ⟨j0, by rw [hlk_ne p.2 (hid_not_adm p hp), hj0], hbr, hs0⟩
  case fifo =>
    intro b
    have hq : queueOf { s with jobs := updJob s.jobs id cancelMark } b
        = queueOf s b := rfl
    have hh1 : histOf
        ({ s with jobs := updJob s.jobs id cancelMark } : SysState).enqHist b
        = histOf s.enqHist b := rfl
    have hh2 : histOf
        ({ s with jobs := updJob s.jobs id cancelMark } : SysState).runHist b
        = histOf s.runHist b := rfl
    rw [hh1, hh2, hq]
    rw [filter_and_ne _ (alive s) _ id halive_self halive_ne,
      filter_and_ne _ (alive s) _ id halive_self halive_ne,
      inv.fifo b, List.filter_append]
    have : (histOf s.runHist b).filter (fun x => x != id)
        = histOf s.runHist b := by
      apply filter_ne_of_not_mem
      intro hcon
      exact hid_not_adm (b, id) (mem_histOf _ _ _ hcon) rfl
    rw [this]

/-- The `cancelRemoveFromQueue` preserves the invariants, given that the id's
status is already `CANCELLED` (the only context in which the code runs it). -/
theorem inv_cancelB (s : SysState) (id : String) (inv : Inv s)
    (h : ∃ j, s.jobs.lookup id = some j ∧ j.status = JobStatus.cancelled) :
    Inv (cancelRemoveFromQueue s id) := by
  obtain ⟨j, hlk, hcanc⟩ := h
  have hs' : cancelRemoveFromQueue s id
      = { s with queues := s.queues.map fun p =>
          if p.1 = j.branch then (p.1, p.2.erase id) else p } := by
    rw [cancelRemoveFromQueue, hlk]
  rw [hs']
  have halive_id : alive s id = false := by
    simp [alive, statusOf, hlk, hcanc]
  have hq_self : ∀ b, queueOf { s with queues := s.queues.map fun p =>
      if p.1 = j.branch then (p.1, p.2.erase id) else p } b
      = (if b = j.branch then (queueOf s b).erase id else queueOf s b) := by
    intro b
    by_cases hb : b = j.branch
    · subst hb
      rw [if_pos rfl]
      exact getQueue_eraseMap_self s.queues _ id
    · rw [if_neg hb]
      exact getQueue_eraseMap_ne s.queues j.branch id b hb
  constructor
  case jobs_keyed => exact inv.jobs_keyed
  case qkeys_nodup =>
    have heq : (s.queues.map fun p =>
        if p.1 = j.branch then (p.1, p.2.erase id) else p)
        = s.queues.map fun p =>
          (p.1, if p.1 = j.branch then p.2.erase id else p.2) := by
      apply List.map_congr_left
      intro p _
      obtain ⟨p1, p2⟩ := p
      by_cases hp : p1 = j.branch <;> simp [hp]
    show ((s.queues.map fun p =>
      if p.1 = j.branch then (p.1, p.2.erase id) else p).map Prod.fst).Nodup
    rw [heq, keys_mapEntries s.queues
      (fun a q => if a = j.branch then q.erase id else q)]
    exact inv.qkeys_nodup
  case qjobs =>
    intro b id' hid'
    rw [hq_self b] at hid'
    by_cases hb : b = j.branch
    · rw [if_pos hb] at hid'
      exact inv.qjobs b id' (List.mem_of_mem_erase hid')
    · rw [if_neg hb] at hid'
      exact inv.qjobs b id' hid'
  case qnodup =>
    intro b
    rw [hq_self b]
    by_cases hb : b = j.branch
    · rw [if_pos hb]
      exact (inv.qnodup b).erase id
    · rw [if_neg hb]
      exact inv.qnodup b
  case run_nodup => exact inv.run_nodup
  case run_le => exact inv.run_le
  case run_jobs => exact inv.run_jobs
  case run_branches => exact inv.run_branches
  case enq_nodup => exact inv.enq_nodup
  case enq_dom => exact inv.enq_dom
  case adm_facts => exact inv.adm_facts
  case fifo =>
    intro b
    have halive_all : alive { s with queues := s.queues.map fun p =>
        if p.1 = j.branch then (p.1, p.2.erase id) else p } = alive s := rfl
    rw [halive_all, hq_self b]
    by_cases hb : b = j.branch
    · rw [if_pos hb, filter_erase_of_false _ _ _ halive_id]
      exact inv.fifo b
    · rw [if_neg hb]
      exact inv.fifo b

/-- The `finishStatus` preserves the invariants. -/
theorem inv_finishA (s : SysState) (jid : String) (ok : Bool) (msg : String)
    (inv : Inv s) (h : jid ∈ s.running) : Inv (finishStatus s jid ok msg) := by
  obtain ⟨j, hlk, hst⟩ := inv.run_jobs jid h
  have hid_not_q : ∀ b, jid ∉ queueOf s b := by
    intro b hcon
    obtain ⟨j0, hj0, _, hs0⟩ := inv.qjobs b jid hcon
    rw [hlk] at hj0
    cases hj0
    rcases hs0 with h0 | h0 <;> rcases hst with h1 | h1 | h1 <;>
      rw [h0] at h1 <;> cases h1
  have hsplit : finishStatus s jid ok msg
      = { s with jobs :=
          (updJob s.jobs jid (if ok then markSucceeded else markFailed msg)) } := by
    rw [finishStatus]
    cases ok <;> simp
  rw [hsplit]
  set g := if ok then markSucceeded else markFailed msg with hg
  have hgbr : ∀ jb, (g jb).branch = jb.branch := by
    intro jb
    rw [hg]
    cases ok
    · simp [markFailed]
    · simp only [reduceIte, markSucceeded]
      by_cases hc : jb.status ≠ JobStatus.failed ∧ jb.status ≠ JobStatus.cancelled
      · rw [if_pos hc]
      · rw [if_neg hc]
  have hgst : ∀ jb, jb.status = JobStatus.running ∨
      jb.status = JobStatus.succeeded ∨ jb.status = JobStatus.failed →
      ((g jb).status = JobStatus.running ∨ (g jb).status = JobStatus.succeeded ∨
        (g jb).status = JobStatus.failed) := by
    intro jb hjb
    rw [hg]
    cases ok
    · simp [markFailed]
    · simp only [reduceIte, markSucceeded]
      by_cases hc : jb.status ≠ JobStatus.failed ∧ jb.status ≠ JobStatus.cancelled
      · rw [if_pos hc]
        right
        left
        rfl
      · rw [if_neg hc]
        exact hjb
  have hlk_ne : ∀ k, k ≠ jid →
      (updJob s.jobs jid g).lookup k = s.jobs.lookup k := by
    intro k hk
    rw [lookup_updJob_ne _ _ _ _ hk]
  have hlk_self : (updJob s.jobs jid g).lookup jid = some (g j) := by
    rw [lookup_updJob_self, hlk]
    rfl
  have hstat_all : ∀ x, alive { s with jobs := updJob s.jobs jid g } x
      = alive s x := by
    intro x
    by_cases hx : x = jid
    · have h1 : statusOf { s with jobs := updJob s.jobs jid g } x
          = some (g j).status := by
        show ((updJob s.jobs jid g).lookup x).map Job.status = _
        rw [hx, hlk_self]
        rfl
      have h2 : statusOf s x = some j.status := by
        show (s.jobs.lookup x).map Job.status = _
        rw [hx, hlk]
        rfl
      have hne1 : (g j).status ≠ JobStatus.cancelled := by
        rcases hgst j hst with h0 | h0 | h0 <;> rw [h0] <;>
          intro hcon <;> cases hcon
      have hne2 : j.status ≠ JobStatus.cancelled := by
        rcases hst with h0 | h0 | h0 <;> rw [h0] <;>
          intro hcon <;> cases hcon
      simp only [alive, h1, h2]
      have e1 : (some (g j).status != some JobStatus.cancelled) = true := by
        simpa using hne1
      have e2 : (some j.status != some JobStatus.cancelled) = true := by
        simpa using hne2
      rw [e1, e2]
    · have h1 : statusOf { s with jobs := updJob s.jobs jid g } x
          = statusOf s x := by
        show ((updJob s.jobs jid g).lookup x).map Job.status
          = (s.jobs.lookup x).map Job.status
        rw [hlk_ne x hx]
      simp only [alive, h1]
  have hgid : ∀ jb, (g jb).job_id = jb.job_id := by
    intro jb
    rw [hg]
    cases ok
    · simp [markFailed]
    · simp only [reduceIte, markSucceeded]
      by_cases hc : jb.status ≠ JobStatus.failed ∧ jb.status ≠ JobStatus.cancelled
      · rw [if_pos hc]
      · rw [if_neg hc]
  constructor
  case jobs_keyed =>
    exact jobs_keyed_updJob s.jobs jid g hgid inv.jobs_keyed
  case qkeys_nodup => exact inv.qkeys_nodup
  case qjobs =>
    intro b id' hid'
    have hq : queueOf { s with jobs := updJob s.jobs jid g } b
        = queueOf s b := rfl
    rw [hq] at hid'
    obtain ⟨j0, hj0, hbr, hs0⟩ := inv.qjobs b id' hid'
    have hx : id' ≠ jid := by
      intro hcon
      exact hid_not_q b (hcon ▸ hid')
    exact ⟨j0, by rw [hlk_ne id' hx, hj0], hbr, hs0⟩
  case qnodup => exact inv.qnodup
  case run_nodup => exact inv.run_nodup
  case run_le => exact inv.run_le
  case run_jobs =>
    intro id' hid'
    obtain ⟨j0, hj0, hs0⟩ := inv.run_jobs id' hid'
    by_cases hx : id' = jid
    · subst hx
      rw [hlk] at hj0
      cases hj0
      exact ⟨g j, hlk_self, hgst j hs0⟩
    · exact ⟨j0, by rw [hlk_ne id' hx, hj0], hs0⟩
  case run_branches =>
    apply pairwise_branchOf_congr _ s _ _ inv.run_branches
    intro x _
    exact branchOf_lookup_updJob s jid g hgbr x
  case enq_nodup => exact inv.enq_nodup
  case enq_dom =>
    intro p hp
    obtain ⟨j0, hj0, hbr⟩ := inv.enq_dom p hp
    by_cases hx : p.2 = jid
    · rw [hx, hlk] at hj0
      cases hj0
      refine ⟨g j, by rw [hx, hlk_self], ?_⟩
      rw [hgbr j]
      exact hbr
    · exact ⟨j0, by rw [hlk_ne p.2 hx, hj0], hbr⟩
  case adm_facts =>
    intro p hp
    obtain ⟨j0, hj0, hbr, hs0⟩ := inv.adm_facts p hp
    by_cases hx : p.2 = jid
    · rw [hx, hlk] at hj0
      cases hj0
      refine ⟨g j, by rw [hx, hlk_self], ?_, hgst j hs0⟩
      rw [hgbr j]
      exact hbr
    · exact ⟨j0, by rw [hlk_ne p.2 hx, hj0], hbr, hs0⟩
  case fifo =>
    intro b
    have hq : queueOf { s with jobs := updJob s.jobs jid g } b
        = queueOf s b := rfl
    rw [hq]
    rw [List.filter_congr fun x _ => hstat_all x,
      List.filter_congr fun x _ => hstat_all x]
    exact inv.fifo b

/-- The `finishRemove` preserves the invariants. -/
theorem inv_finishB (s : SysState) (id : String) (inv : Inv s) :
    Inv (finishRemove s id) := by
  have hsub : List.Sublist (s.running.erase id) s.running :=
    List.erase_sublist id s.running
  constructor
  case jobs_keyed => exact inv.jobs_keyed
  case qkeys_nodup => exact inv.qkeys_nodup
  case qjobs => exact inv.qjobs
  case qnodup => exact inv.qnodup
  case run_nodup => exact inv.run_nodup.erase id
  case run_le => exact le_trans (List.Sublist.length_le hsub) inv.run_le
  case run_jobs =>
    intro id' hid'
    exact inv.run_jobs id' (List.mem_of_mem_erase hid')
  case run_branches => exact inv.run_branches.sublist hsub
  case enq_nodup => exact inv.enq_nodup
  case enq_dom => exact inv.enq_dom
  case adm_facts => exact inv.adm_facts
  case fifo => exact inv.fifo

/-! ## One scheduler cycle preserves the invariants -/

/-- Queue left behind by the selection loop for one branch: evict one stale
head (missing or non-`PENDING` job), otherwise leave the queue unchanged. -/
def scanQueue (jobs : List (String × Job)) (running : List String)
    (b : String) (q : List String) : List String :=
  match q with
  | [] => []
  | id :: rest =>
    if branchBusy jobs running b then id :: rest
    else
      match jobs.lookup id with
      | none => rest
      | some j => if j.status ≠ JobStatus.pending then rest else id :: rest

/-- The job the selection loop picks from one branch, if any. -/
def pickJob (jobs : List (String × Job)) (running : List String)
    (actUsers : List String) (b : String) (q : List String) : Option Job :=
  match q with
  | [] => none
  | id :: _rest =>
    if branchBusy jobs running b then none
    else
      match jobs.lookup id with
      | none => none
      | some j =>
        if j.status ≠ JobStatus.pending then none
        else if j.user_id ∉ actUsers ∧ ACTIVE_USERS_LIMIT ≤ actUsers.length then
          none
        else some j

/-- With the running set below `MAX_WORKERS` — guaranteed by line 30 before
the selection loop runs, which makes the line-68 `break` dead code — the
selection loop is a per-branch map plus a filter of picked jobs. -/
theorem selectJobs_eq (jobs : List (String × Job)) (running : List String)
    (actUsers : List String) (hrun : running.length < MAX_WORKERS) :
    ∀ qs, selectJobs jobs running actUsers qs =
      (qs.map fun p => (p.1, scanQueue jobs running p.1 p.2),
       qs.filterMap fun p =>
         (pickJob jobs running actUsers p.1 p.2).map fun j => (p.1, j)) := by
  intro qs
  induction qs with
  | nil => rfl
  | cons p qs ih =>
    obtain ⟨b, q⟩ := p
    cases q with
    | nil =>
      show (let r := selectJobs jobs running actUsers qs
        ((b, ([] : List String)) :: r.1, r.2)) = _
      rw [ih]
      simp [scanQueue, pickJob]
    | cons id rest =>
      have hw : ¬ (MAX_WORKERS ≤ running.length) := Nat.not_le.mpr hrun
      rw [selectJobs]
      by_cases hbusy : branchBusy jobs running b
      · rw [if_pos hbusy, ih]
        simp [scanQueue, pickJob, hbusy]
      · rw [if_neg hbusy]
        rcases hlk : jobs.lookup id with _ | j
        · rw [ih]
          simp [scanQueue, pickJob, hbusy, hlk]
        · by_cases hstp : j.status = JobStatus.pending
          · by_cases huser : j.user_id ∉ actUsers ∧
                ACTIVE_USERS_LIMIT ≤ actUsers.length
            · rw [ih]
              simp [scanQueue, pickJob, hbusy, hlk, hstp, huser]
            · rw [ih]
              simp [scanQueue, pickJob, hbusy, hlk, hstp, huser, hw]
          · rw [ih]
            simp [scanQueue, pickJob, hbusy, hlk, hstp]

theorem pickJob_facts (jobs : List (String × Job)) (running : List String)
    (actUsers : List String) (b : String) (q : List String) (j : Job)
    (h : pickJob jobs running actUsers b q = some j) :
    branchBusy jobs running b = false ∧
    ∃ id rest, q = id :: rest ∧ jobs.lookup id = some j ∧
      j.status = JobStatus.pending ∧ scanQueue jobs running b q = q := by
  cases q with
  | nil => simp [pickJob] at h
  | cons id rest =>
    rw [pickJob] at h
    by_cases hbusy : branchBusy jobs running b
    · rw [if_pos hbusy] at h
      cases h
    · rw [if_neg hbusy] at h
      rcases hlk : jobs.lookup id with _ | j0
      · rw [hlk] at h
        simp at h
      · rw [hlk] at h
        simp only [] at h
        by_cases hstp : j0.status = JobStatus.pending
        · by_cases huser : j0.user_id ∉ actUsers ∧
              ACTIVE_USERS_LIMIT ≤ actUsers.length
          · simp [hstp, huser] at h
          · simp only [hstp, ne_eq, not_true_eq_false, if_neg, reduceIte,
              huser, Option.some.injEq] at h
            subst h
            refine ⟨by simpa using hbusy, id, rest, rfl, hlk, hstp, ?_⟩
            rw [scanQueue, if_neg hbusy, hlk]
            simp [hstp]
        · simp [hstp] at h

theorem scanQueue_cases (jobs : List (String × Job)) (running : List String)
    (b : String) (q : List String) :
    scanQueue jobs running b q = q ∨
    (∃ hd tl, q = hd :: tl ∧ scanQueue jobs running b q = tl ∧
      (jobs.lookup hd = none ∨
        ∃ j, jobs.lookup hd = some j ∧ j.status ≠ JobStatus.pending)) := by
  cases q with
  | nil => left; rfl
  | cons id rest =>
    rw [scanQueue]
    by_cases hbusy : branchBusy jobs running b
    · left
      rw [if_pos hbusy]
    · rw [if_neg hbusy]
      rcases hlk : jobs.lookup id with _ | j
      · right
        exact ⟨id, rest, rfl, rfl, Or.inl hlk⟩
      · by_cases hstp : j.status = JobStatus.pending
        · left
          simp [hstp]
        · right
          refine ⟨id, rest, rfl, ?_, Or.inr ⟨j, hlk, hstp⟩⟩
          simp [hstp]

theorem branchBusy_false (jobs : List (String × Job)) (running : List String)
    (b : String) (h : branchBusy jobs running b = false) :
    ∀ rid ∈ running, ((jobs.lookup rid).map Job.branch) ≠ some b := by
  intro rid hrid
  have hone := List.any_eq_false.mp h rid hrid
  rcases hlk : jobs.lookup rid with _ | j
  · simp [hlk]
  · rw [hlk] at hone
    simp only [] at hone
    have : j.branch ≠ b := by simpa using hone
    simp [hlk, this]

theorem filterMap_keyed_fst_sublist {β γ : Type} (qs : List (String × β))
    (f : String × β → Option γ) :
    List.Sublist
      ((qs.filterMap fun p => (f p).map fun j => (p.1, j)).map Prod.fst)
      (qs.map Prod.fst) := by
  induction qs with
  | nil => exact List.Sublist.refl []
  | cons p qs ih =>
    rw [List.filterMap_cons]
    cases f p with
    | none =>
      simp only [Option.map_none']
      exact List.Sublist.cons p.1 ih
    | some j =>
      simp only [Option.map_some', List.map_cons]
      exact List.Sublist.cons₂ p.1 ih

/-- What the start loop needs of its remaining selected jobs: each is a
pending job at the head of its (idle) branch queue, branches pairwise
distinct. -/
def StartPre (s : SysState) (sel : List (String × Job)) : Prop :=
  (∀ p ∈ sel, s.jobs.lookup p.2.job_id = some p.2 ∧
    p.2.status = JobStatus.pending ∧ p.2.branch = p.1 ∧
    (queueOf s p.1).head? = some p.2.job_id ∧
    ∀ rid ∈ s.running, branchOf s rid ≠ some p.1) ∧
  (sel.map Prod.fst).Nodup

theorem inv_startJobs :
    ∀ (sel : List (String × Job)) (s : SysState) (actU : List String),
      Inv s → StartPre s sel → Inv (startJobs s actU sel) := by
  intro sel
  induction sel with
  | nil =>
    intro s actU inv _
    exact inv
  | cons p rest ih =>
    intro s actU inv pre
    obtain ⟨b, j⟩ := p
    rw [startJobs]
    by_cases hfull : MAX_WORKERS ≤ s.running.length
    · rw [if_pos hfull]
      exact inv
    · rw [if_neg hfull]
      obtain ⟨hsel, hbrs⟩ := pre
      obtain ⟨hlkj, hpend, hbr, hhead, hnobusy⟩ :=
        hsel (b, j) (List.mem_cons_self _ _)
      dsimp only at hlkj hpend hbr hhead hnobusy
      have hb_not_rest : b ∉ rest.map Prod.fst := by
        rw [List.map_cons] at hbrs
        exact (List.nodup_cons.mp hbrs).1
      have hrest_nodup : (rest.map Prod.fst).Nodup := by
        rw [List.map_cons] at hbrs
        exact (List.nodup_cons.mp hbrs).2
      -- the popped queue
      obtain ⟨tl, htl⟩ : ∃ tl, queueOf s b = j.job_id :: tl := by
        rcases hq : queueOf s b with _ | ⟨h0, t0⟩
        · rw [hq] at hhead
          cases hhead
        · rw [hq] at hhead
          simp only [List.head?_cons, Option.some.injEq] at hhead
          exact ⟨t0, by rw [hhead]⟩
      have hjid_not_run : j.job_id ∉ s.running := by
        intro hcon
        obtain ⟨j0, hj0, hs0⟩ := inv.run_jobs _ hcon
        rw [hlkj] at hj0
        cases hj0
        rcases hs0 with h0 | h0 | h0 <;> rw [h0] at hpend <;> cases hpend
      have hjid_not_adm : ∀ pr ∈ s.runHist, pr.2 ≠ j.job_id := by
        intro pr hpr hcon
        obtain ⟨j0, hj0, _, hs0⟩ := inv.adm_facts pr hpr
        rw [hcon, hlkj] at hj0
        cases hj0
        rcases hs0 with h0 | h0 | h0 <;> rw [h0] at hpend <;> cases hpend
      have hjid_enq_branch : ∀ b', b' ≠ b → (b', j.job_id) ∉ s.enqHist := by
        intro b' hb' hcon
        obtain ⟨j0, hj0, hbr0⟩ := inv.enq_dom _ hcon
        rw [hlkj] at hj0
        cases hj0
        rw [hbr] at hbr0
        exact hb' hbr0.symm
      have hjid_q_branch : ∀ b', b' ≠ b → j.job_id ∉ queueOf s b' := by
        intro b' hb' hcon
        obtain ⟨j0, hj0, hbr0, _⟩ := inv.qjobs b' _ hcon
        rw [hlkj] at hj0
        cases hj0
        rw [hbr] at hbr0
        exact hb' hbr0.symm
      have hjid_not_tl : j.job_id ∉ tl := by
        have := inv.qnodup b
        rw [htl] at this
        exact (List.nodup_cons.mp this).1
      have hrun_eq : addRun s.running j.job_id = s.running ++ [j.job_id] := by
        rw [addRun, if_neg hjid_not_run]
      set s1 : SysState :=
        { s with
            jobs := updJob s.jobs j.job_id markRunning
            queues := popIfHead s.queues b j.job_id
            running := addRun s.running j.job_id
            runHist := s.runHist ++ [(b, j.job_id)] } with hs1
      have hlk_ne : ∀ k, k ≠ j.job_id →
          s1.jobs.lookup k = s.jobs.lookup k := by
        intro k hk
        show (updJob s.jobs j.job_id markRunning).lookup k = _
        rw [lookup_updJob_ne _ _ _ _ hk]
      have hlk_self : s1.jobs.lookup j.job_id = some (markRunning j) := by
        show (updJob s.jobs j.job_id markRunning).lookup j.job_id = _
        rw [lookup_updJob_self, hlkj]
        rfl
      have hq1_self : queueOf s1 b = tl := by
        show getQueue (popIfHead s.queues b j.job_id) b = tl
        rw [getQueue_popIfHead_self]
        show popHeadIf j.job_id (queueOf s b) = tl
        rw [htl, popHeadIf]
        simp
      have hq1_ne : ∀ b', b' ≠ b → queueOf s1 b' = queueOf s b' := by
        intro b' hb'
        show getQueue (popIfHead s.queues b j.job_id) b' = _
        rw [getQueue_popIfHead_ne _ _ _ _ hb']
        rfl
      have hbr_all : ∀ x, branchOf s1 x = branchOf s x := by
        intro x
        show (s1.jobs.lookup x).map Job.branch = _
        exact branchOf_lookup_updJob s j.job_id markRunning (fun jb => rfl) x
      have halive_all : ∀ x, alive s1 x = alive s x := by
        intro x
        by_cases hx : x = j.job_id
        · have h1 : statusOf s1 x = some JobStatus.running := by
            show (s1.jobs.lookup x).map Job.status = _
            rw [hx, hlk_self]
            rfl
          have h2 : statusOf s x = some JobStatus.pending := by
            show (s.jobs.lookup x).map Job.status = _
            rw [hx, hlkj]
            simp [hpend]
          simp only [alive, h1, h2]
          decide
        · have h1 : statusOf s1 x = statusOf s x := by
            show (s1.jobs.lookup x).map Job.status
              = (s.jobs.lookup x).map Job.status
            rw [hlk_ne x hx]
          simp only [alive, h1]
      have inv1 : Inv s1 := by
        constructor
        case jobs_keyed =>
          exact jobs_keyed_updJob s.jobs j.job_id markRunning (fun jb => rfl)
            inv.jobs_keyed
        case qkeys_nodup =>
          show ((popIfHead s.queues b j.job_id).map Prod.fst).Nodup
          rw [popIfHead_eq_mapEntries, keys_mapEntries s.queues
            (fun a q => if a = b then popHeadIf j.job_id q else q)]
          exact inv.qkeys_nodup
        case qjobs =>
          intro b' id' hid'
          have hmem : id' ∈ queueOf s b' ∧ id' ≠ j.job_id := by
            by_cases hb' : b' = b
            · subst hb'
              rw [hq1_self] at hid'
              constructor
              · rw [htl]
                exact List.mem_cons_of_mem _ hid'
              · intro hcon
                exact hjid_not_tl (hcon ▸ hid')
            · rw [hq1_ne b' hb'] at hid'
              refine ⟨hid', ?_⟩
              intro hcon
              exact hjid_q_branch b' hb' (hcon ▸ hid')
          obtain ⟨j0, hj0, hbr0, hs0⟩ := inv.qjobs b' id' hmem.1
          exact ⟨j0, by rw [hlk_ne id' hmem.2, hj0], hbr0, hs0⟩
        case qnodup =>
          intro b'
          by_cases hb' : b' = b
          · subst hb'
            rw [hq1_self]
            have := inv.qnodup b'
            rw [htl] at this
            exact (List.nodup_cons.mp this).2
          · rw [hq1_ne b' hb']
            exact inv.qnodup b'
        case run_nodup =>
          show (addRun s.running j.job_id).Nodup
          rw [hrun_eq]
          simp [List.nodup_append, inv.run_nodup, hjid_not_run]
        case run_le =>
          show (addRun s.running j.job_id).length ≤ MAX_WORKERS
          rw [hrun_eq, List.length_append]
          simp only [List.length_cons, List.length_nil]
          omega
        case run_jobs =>
          intro id' hid'
          show ∃ j0, s1.jobs.lookup id' = some j0 ∧ _
          have hid'' : id' ∈ s.running ++ [j.job_id] := by
            rw [← hrun_eq]
            exact hid'
          rcases List.mem_append.mp hid'' with hmem | hmem
          · obtain ⟨j0, hj0, hs0⟩ := inv.run_jobs id' hmem
            have hne : id' ≠ j.job_id := by
              intro hcon
              exact hjid_not_run (hcon ▸ hmem)
            exact ⟨j0, by rw [hlk_ne id' hne, hj0], hs0⟩
          · have : id' = j.job_id := by simpa using hmem
            subst this
            exact ⟨markRunning j, hlk_self, Or.inl rfl⟩
        case run_branches =>
          show (addRun s.running j.job_id).Pairwise _
          rw [hrun_eq]
          apply List.pairwise_append.mpr
          refine ⟨?_, List.pairwise_singleton _ _, ?_⟩
          · apply pairwise_branchOf_congr _ s _ (fun x _ => hbr_all x)
              inv.run_branches
          · intro rid hrid y hy
            have hy' : y = j.job_id := by simpa using hy
            rw [hbr_all rid, hbr_all y, hy']
            have h1 : branchOf s j.job_id = some b := by
              show (s.jobs.lookup j.job_id).map Job.branch = _
              rw [hlkj]
              simp [hbr]
            rw [h1]
            exact hnobusy rid hrid
        case enq_nodup => exact inv.enq_nodup
        case enq_dom =>
          intro pr hpr
          obtain ⟨j0, hj0, hbr0⟩ := inv.enq_dom pr hpr
          by_cases hx : pr.2 = j.job_id
          · rw [hx, hlkj] at hj0
            cases hj0
            refine ⟨markRunning j, by rw [hx, hlk_self], hbr0⟩
          · exact ⟨j0, by rw [hlk_ne pr.2 hx, hj0], hbr0⟩
        case adm_facts =>
          intro pr hpr
          have hpr' : pr ∈ s.runHist ++ [(b, j.job_id)] := hpr
          rcases List.mem_append.mp hpr' with hmem | hmem
          · obtain ⟨j0, hj0, hbr0, hs0⟩ := inv.adm_facts pr hmem
            exact ⟨j0, by rw [hlk_ne pr.2 (hjid_not_adm pr hmem), hj0], hbr0,
              hs0⟩
          · have : pr = (b, j.job_id) := by simpa using hmem
            subst this
            refine ⟨markRunning j, hlk_self, ?_, Or.inl rfl⟩
            show j.branch = b
            exact hbr
        case fifo =>
          intro b''
          have henq : histOf s1.enqHist b'' = histOf s.enqHist b'' := rfl
          have hadm : histOf s1.runHist b''
              = histOf s.runHist b'' ++ histOf [(b, j.job_id)] b'' := by
            show histOf (s.runHist ++ [(b, j.job_id)]) b'' = _
            rw [histOf_append]
          rw [henq, hadm, histOf_single,
            List.filter_congr fun x _ => halive_all x]
          by_cases hb'' : b = b''
          · subst hb''
            rw [if_pos rfl, hq1_self,
              List.filter_congr fun x (_ : x ∈ tl) => halive_all x]
            have hold := inv.fifo b
            rw [htl, List.filter_cons] at hold
            have halivej : alive s j.job_id = true := by
              have h2 : statusOf s j.job_id = some JobStatus.pending := by
                show (s.jobs.lookup j.job_id).map Job.status = _
                rw [hlkj]
                simp [hpend]
              simp [alive, h2]
            rw [halivej] at hold
            simp only [reduceIte] at hold
            rw [hold, List.append_assoc]
            rfl
          · rw [if_neg hb'', hq1_ne b'' (fun hcon => hb'' hcon.symm),
              List.filter_congr fun x (_ : x ∈ queueOf s b'') => halive_all x,
              List.append_nil]
            exact inv.fifo b''
      have pre1 : StartPre s1 rest := by
        constructor
        · intro p hp
          obtain ⟨hlkp, hpendp, hbrp, hheadp, hnobusyp⟩ :=
            hsel p (List.mem_cons_of_mem _ hp)
          have hpb : p.1 ≠ b := by
            intro hcon
            exact hb_not_rest (hcon ▸ List.mem_map.mpr ⟨p, hp, rfl⟩)
          have hpid : p.2.job_id ≠ j.job_id := by
            intro hcon
            rw [hcon, hlkj] at hlkp
            cases hlkp
            rw [hbr] at hbrp
            exact hpb hbrp.symm
          refine ⟨by rw [hlk_ne _ hpid, hlkp], hpendp, hbrp, ?_, ?_⟩
          · rw [hq1_ne p.1 hpb]
            exact hheadp
          · intro rid hrid
            have hrid' : rid ∈ s.running ++ [j.job_id] := by
              rw [← hrun_eq]
              exact hrid
            rw [hbr_all rid]
            rcases List.mem_append.mp hrid' with hmem | hmem
            · exact hnobusyp rid hmem
            · have hre : rid = j.job_id := by simpa using hmem
              have h1 : branchOf s j.job_id = some b := by
                show (s.jobs.lookup j.job_id).map Job.branch = _
                rw [hlkj]
                simp [hbr]
              rw [hre, h1]
              intro hcon
              have : b = p.1 := by simpa using hcon
              exact hpb this.symm
        · exact hrest_nodup
      exact ih s1 (addRun actU j.user_id) inv1 pre1

/-- One scheduler cycle preserves the invariants. -/
theorem inv_cycle (s : SysState) (inv : Inv s) : Inv (schedulerCycle s) := by
  rw [schedulerCycle]
  by_cases hq0 : s.queues = []
  · rw [if_pos hq0]
    exact inv
  · rw [if_neg hq0]
    by_cases hfull : MAX_WORKERS ≤ s.running.length
    · rw [if_pos hfull]
      exact inv
    · rw [if_neg hfull]
      have hrun : s.running.length < MAX_WORKERS := Nat.lt_of_not_le hfull
      rw [selectJobs_eq s.jobs s.running (activeUsers s.jobs s.running) hrun
        s.queues]
      show Inv (startJobs
        { s with queues := s.queues.map fun p =>
            (p.1, scanQueue s.jobs s.running p.1 p.2) }
        (activeUsers s.jobs s.running)
        (s.queues.filterMap fun p =>
          (pickJob s.jobs s.running (activeUsers s.jobs s.running)
            p.1 p.2).map fun j => (p.1, j)))
      set s1 : SysState := { s with queues := s.queues.map fun p =>
        (p.1, scanQueue s.jobs s.running p.1 p.2) } with hs1def
      have hq1 : ∀ b, queueOf s1 b
          = scanQueue s.jobs s.running b (queueOf s b) := by
        intro b
        show getQueue (s.queues.map fun p =>
          (p.1, scanQueue s.jobs s.running p.1 p.2)) b = _
        rw [getQueue, lookup_mapEntries s.queues (scanQueue s.jobs s.running) b]
        rcases hlk : s.queues.lookup b with _ | q
        · show ([] : List String) = scanQueue s.jobs s.running b (getQueue s.queues b)
          rw [getQueue, hlk]
          rfl
        · show scanQueue s.jobs s.running b q
            = scanQueue s.jobs s.running b (getQueue s.queues b)
          rw [getQueue, hlk]
      have inv1 : Inv s1 := by
        constructor
        case jobs_keyed => exact inv.jobs_keyed
        case qkeys_nodup =>
          show ((s.queues.map fun p =>
            (p.1, scanQueue s.jobs s.running p.1 p.2)).map Prod.fst).Nodup
          rw [keys_mapEntries s.queues (scanQueue s.jobs s.running)]
          exact inv.qkeys_nodup
        case qjobs =>
          intro b id hid
          rw [hq1 b] at hid
          rcases scanQueue_cases s.jobs s.running b (queueOf s b) with hc |
              ⟨hd, tl, hqe, hscan, _⟩
          · rw [hc] at hid
            exact inv.qjobs b id hid
          · rw [hscan] at hid
            refine inv.qjobs b id ?_
            rw [hqe]
            exact List.mem_cons_of_mem _ hid
        case qnodup =>
          intro b
          rw [hq1 b]
          rcases scanQueue_cases s.jobs s.running b (queueOf s b) with hc |
              ⟨hd, tl, hqe, hscan, _⟩
          · rw [hc]
            exact inv.qnodup b
          · rw [hscan]
            have := inv.qnodup b
            rw [hqe] at this
            exact (List.nodup_cons.mp this).2
        case run_nodup => exact inv.run_nodup
        case run_le => exact inv.run_le
        case run_jobs => exact inv.run_jobs
        case run_branches => exact inv.run_branches
        case enq_nodup => exact inv.enq_nodup
        case enq_dom => exact inv.enq_dom
        case adm_facts => exact inv.adm_facts
        case fifo =>
          intro b
          have he : histOf s1.enqHist b = histOf s.enqHist b := rfl
          have hr : histOf s1.runHist b = histOf s.runHist b := rfl
          have ha : alive s1 = alive s := rfl
          rw [he, hr, ha, hq1 b]
          rcases scanQueue_cases s.jobs s.running b (queueOf s b) with hc |
              ⟨hd, tl, hqe, hscan, hstale⟩
          · rw [hc]
            exact inv.fifo b
          · rw [hscan]
            have hhd_mem : hd ∈ queueOf s b := by
              rw [hqe]
              exact List.mem_cons_self _ _
            obtain ⟨j0, hj0, _, hs0⟩ := inv.qjobs b hd hhd_mem
            have hcanc : j0.status = JobStatus.cancelled := by
              rcases hstale with hnone | ⟨j1, hj1, hnp⟩
              · rw [hj0] at hnone
                cases hnone
              · rw [hj0] at hj1
                cases hj1
                rcases hs0 with h0 | h0
                · exact absurd h0 hnp
                · exact h0
            have halive_hd : alive s hd = false := by
              have hst : statusOf s hd = some JobStatus.cancelled := by
                show (s.jobs.lookup hd).map Job.status = _
                rw [hj0]
                simp [hcanc]
              simp [alive, hst]
            have := inv.fifo b
            rw [hqe, List.filter_cons, halive_hd] at this
            simp only [Bool.false_eq_true, reduceIte] at this
            exact this
      have pre1 : StartPre s1 (s.queues.filterMap fun p =>
          (pickJob s.jobs s.running (activeUsers s.jobs s.running)
            p.1 p.2).map fun j => (p.1, j)) := by
        constructor
        · intro pr hpr
          obtain ⟨p0, hp0, hmap⟩ := List.mem_filterMap.mp hpr
          rcases hpick : pickJob s.jobs s.running
              (activeUsers s.jobs s.running) p0.1 p0.2 with _ | j
          · rw [hpick] at hmap
            cases hmap
          · rw [hpick] at hmap
            simp only [Option.map_some', Option.some.injEq] at hmap
            obtain ⟨hbusy, id, rest, hq, hlk, hpend, hscan⟩ :=
              pickJob_facts _ _ _ _ _ _ hpick
            have hjid : j.job_id = id :=
              inv.jobs_keyed (id, j) (mem_of_lookup_eq_some _ _ _ hlk)
            have hqp0 : queueOf s p0.1 = p0.2 := by
              rw [queueOf, getQueue,
                lookup_eq_of_mem_nodupKeys s.queues inv.qkeys_nodup p0.1 p0.2
                  (by rw [show (p0.1, p0.2) = p0 from rfl]; exact hp0)]
            rw [← hmap]
            dsimp only
            refine ⟨?_, hpend, ?_, ?_, ?_⟩
            · rw [hjid]
              exact hlk
            · obtain ⟨j1, hj1, hbr1, _⟩ := inv.qjobs p0.1 id (by
                rw [hqp0, hq]
                exact List.mem_cons_self _ _)
              rw [hlk] at hj1
              cases hj1
              exact hbr1
            · rw [hq1 p0.1, hqp0, hscan, hq, List.head?_cons, hjid]
            · intro rid hrid
              have := branchBusy_false s.jobs s.running p0.1 (by
                simpa using hbusy) rid hrid
              exact this
        · have hsub := filterMap_keyed_fst_sublist s.queues
            (fun p => pickJob s.jobs s.running
              (activeUsers s.jobs s.running) p.1 p.2)
          exact List.Nodup.sublist hsub inv.qkeys_nodup
      exact inv_startJobs _ s1 (activeUsers s.jobs s.running) inv1 pre1

/-- Every reachable state satisfies the invariants. -/
theorem inv_reachable (s : SysState) (h : Reachable s) : Inv s := by
  induction h with
  | init => exact inv_init
  | step _ hstep ih =>
    cases hstep with
    | submit j hfresh hst => exact inv_submit _ j ih hfresh hst
    | cycle => exact inv_cycle _ ih
    | cancelA =>
      rename_i jid hcc
      exact inv_cancelA _ jid _ ih hcc
    | cancelB id h => exact inv_cancelB _ id ih h
    | finishA id ok msg h => exact inv_finishA _ id ok msg ih h
    | finishB id h => exact inv_finishB _ id ih

/-- C6: in every reachable state the running set holds at most
`MAX_WORKERS = 4` job ids — the scheduler's start loop re-checks the limit
before each admission and adds exactly one id per admission, and `run_job`'s
cleanup only removes ids. -/
theorem c6_running_le_max_workers (s : SysState) (h : Reachable s) :
    s.running.length ≤ MAX_WORKERS ∧ MAX_WORKERS = 4 :=
  ⟨(inv_reachable s h).run_le, rfl⟩

/-- Witness for C6 at the state reached by one submission and one cycle. -/
theorem c6_running_le_max_workers_witness :
    (schedulerCycle (submitJob initState (mkJob ("jm") "bm" "um"))).running.length
      ≤ MAX_WORKERS ∧ MAX_WORKERS = 4 :=
  c6_running_le_max_workers _
    ((Reachable.init.step (Step.submit _ _ (by decide) rfl)).step
      (Step.cycle _))

/-- C5: in every reachable state, for every branch `b` at most one running job
has branch `b` — the selection loop skips busy branches and selects at most
one head per branch per cycle. -/
theorem c5_one_running_per_branch (s : SysState) (h : Reachable s)
    (b : String) :
    (s.running.filter fun id => branchOf s id == some b).length ≤ 1 := by
  have inv := inv_reachable s h
  have hp : (s.running.filter fun id => branchOf s id == some b).Pairwise
      (fun i1 i2 => branchOf s i1 ≠ branchOf s i2) :=
    inv.run_branches.filter _
  have hmemb : ∀ x ∈ s.running.filter fun id => branchOf s id == some b,
      branchOf s x = some b := by
    intro x hx
    have := List.of_mem_filter hx
    simpa using this
  rcases hl : s.running.filter (fun id => branchOf s id == some b) with
    _ | ⟨x, _ | ⟨y, t⟩⟩
  · simp
  · simp
  · exfalso
    rw [hl] at hp
    have hxy := (List.pairwise_cons.mp hp).1 y (List.mem_cons_self _ _)
    have hx : branchOf s x = some b := by
      refine hmemb x ?_
      rw [hl]
      exact List.mem_cons_self _ _
    have hy : branchOf s y = some b := by
      refine hmemb y ?_
      rw [hl]
      exact List.mem_cons_of_mem _ (List.mem_cons_self _ _)
    exact hxy (hx.trans hy.symm)

/-- Witness for C5 after admitting one of two same-branch jobs. -/
theorem c5_one_running_per_branch_witness :
    ((schedulerCycle (submitJob (submitJob initState (mkJob ("ja") "bs" "ua"))
        (mkJob ("jb") "bs" "ub"))).running.filter fun id =>
      branchOf (schedulerCycle (submitJob (submitJob initState
        (mkJob ("ja") "bs" "ua")) (mkJob ("jb") "bs" "ub"))) id
        == some ("bs")).length ≤ 1 :=
  c5_one_running_per_branch _
    (((Reachable.init.step (Step.submit _ _ (by decide) rfl)).step
      (Step.submit _ _ (by decide) rfl)).step (Step.cycle _)) "bs"

/-- C4: per-branch FIFO admission.  `enqHist` records `enqueue_job` calls in
order (enqueue appends at the queue tail), `runHist` records the
`PENDING → RUNNING` transitions in order (the start loop admits only queue
heads).  In every reachable state, for every branch, the enqueue history
restricted to never-cancelled ids equals the admission history followed by
the not-yet-cancelled part of the still-pending queue: admissions are exactly
the never-cancelled enqueued jobs, in enqueue order — once the queue drains,
the two sequences coincide completely. -/
theorem c4_fifo_admission_order (s : SysState) (h : Reachable s)
    (b : String) :
    (histOf s.enqHist b).filter (alive s) =
      histOf s.runHist b ++ (queueOf s b).filter (alive s) :=
  (inv_reachable s h).fifo b

/-- Witness for C4: two jobs enqueued on one branch, the first admitted. -/
theorem c4_fifo_admission_order_witness :
    (histOf (schedulerCycle (submitJob (submitJob initState
        (mkJob ("jc") "bt" "uc")) (mkJob ("jd") "bt" "ud"))).enqHist ("bt")).filter
      (alive (schedulerCycle (submitJob (submitJob initState
        (mkJob ("jc") "bt" "uc")) (mkJob ("jd") "bt" "ud")))) =
    histOf (schedulerCycle (submitJob (submitJob initState
        (mkJob ("jc") "bt" "uc")) (mkJob ("jd") "bt" "ud"))).runHist ("bt") ++
      ((queueOf (schedulerCycle (submitJob (submitJob initState
        (mkJob ("jc") "bt" "uc")) (mkJob ("jd") "bt" "ud"))) "bt").filter
      (alive (schedulerCycle (submitJob (submitJob initState
        (mkJob ("jc") "bt" "uc")) (mkJob ("jd") "bt" "ud"))))) :=
  c4_fifo_admission_order _
    (((Reachable.init.step (Step.submit _ _ (by decide) rfl)).step
      (Step.submit _ _ (by decide) rfl)).step (Step.cycle _)) "bt"

end TLWS
